import Mathlib

/-!
# Verification of the structured-response extractor of `app.py`

The repository's only algorithmic core is the block that takes a raw LLM
completion, strips markdown code fences, slices out the braced JSON span and
decodes it (`StartupIdeaGenerator.generate_startup_ideas`, `app.py` lines
192-225, duplicated verbatim in `validate_startup_idea`, lines 275-308).

This file gives a shallow embedding of that block and of the strict JSON
decoder it calls (`json.loads`), working over `List Char` (Python `str` is a
sequence of code points).  Numbers are kept exactly: an integer literal
becomes `jint`, a literal with a fraction or exponent becomes
`jnum m e` standing for `m * 10 ^ e` (Python stores these as floats; no claim
here compares float values, so the exact representation is faithful for every
equality this file states).  Decoded strings are lists of code points
(`List Nat`) because Python strings may hold lone surrogates produced by
`\uXXXX` escapes, which Lean's `Char` cannot.
-/

/-- The `'\x7b'` character (left curly brace). -/
def obr : Char := '\x7b'

/-- The `'\x7d'` character (right curly brace). -/
def cbr : Char := '\x7d'

/-- JSON whitespace, CPython's `json.decoder.WHITESPACE` class `[ \t\n\r]`. -/
def jsonWs (c : Char) : Bool :=
  c == ' ' || c == '\t' || c == '\n' || c == '\r'

/-- Skip JSON whitespace, as the decoder's `_w(s, idx).end()` does. -/
def skipWs (l : List Char) : List Char := l.dropWhile jsonWs

/-- Python `str.isspace` / the set stripped by `str.strip()` (modern CPython:
ASCII whitespace and separators 0x09-0x0d, 0x1c-0x1f, 0x20, plus the Unicode
space characters). -/
def pyIsSpace (c : Char) : Bool :=
  let n := c.toNat
  decide ((9 ≤ n ∧ n ≤ 13) ∨ (28 ≤ n ∧ n ≤ 32) ∨ n = 133 ∨ n = 160 ∨
    n = 5760 ∨ (8192 ≤ n ∧ n ≤ 8202) ∨ n = 8232 ∨ n = 8233 ∨ n = 8239 ∨
    n = 8287 ∨ n = 12288)

/-- Python `str.strip()` from the left. -/
def pyStripLeft (l : List Char) : List Char := l.dropWhile pyIsSpace

/-- Python `str.strip()` from the right. -/
def pyStripRight (l : List Char) : List Char :=
  (l.reverse.dropWhile pyIsSpace).reverse

/-- Python `str.strip()`. -/
def pyStrip (l : List Char) : List Char := pyStripRight (pyStripLeft l)

/-- The decoded JSON values `json.loads` can produce. -/
inductive JVal : Type where
  | jnull : JVal
  | jbool (b : Bool) : JVal
  | jint (n : Int) : JVal
  | jnum (m : Int) (e : Int) : JVal
  | jnan : JVal
  | jinf (pos : Bool) : JVal
  | jstr (cs : List Nat) : JVal
  | jarr (xs : List JVal) : JVal
  | jobj (fields : List (List Nat × JVal)) : JVal

/-- Value of a hex digit, as in `json.decoder`'s `\uXXXX` handling. -/
def hexVal (c : Char) : Option Nat :=
  if '0' ≤ c ∧ c ≤ '9' then some (c.toNat - 48)
  else if 'a' ≤ c ∧ c ≤ 'f' then some (c.toNat - 87)
  else if 'A' ≤ c ∧ c ≤ 'F' then some (c.toNat - 55)
  else none

/-- Prepend a code point to a string-body parse result. -/
def mapCons (n : Nat) (o : Option (List Nat × List Char)) :
    Option (List Nat × List Char) :=
  o.map (fun p => (n :: p.1, p.2))

/-- Four hex digits to a code unit, CPython `_decode_uXXXX` (which errors —
here `none` — unless all four characters are hex digits). -/
def hex4 (g1 g2 g3 g4 : Char) : Option Nat :=
  match hexVal g1, hexVal g2, hexVal g3, hexVal g4 with
  | some a, some b, some c, some d => some (((a * 16 + b) * 16 + c) * 16 + d)
  | _, _, _, _ => none

/-- After a high surrogate `\uXXXX`: CPython checks whether the next two
characters are literally `\u`; if so the following four characters must be
valid hex (else the decode errors), and a low surrogate combines; any other
code unit is kept lone and scanning resumes before the second escape. -/
def surrPair (code : Nat) (t : List Char) : Option (Nat × List Char) :=
  if t.take 2 = ['\\', 'u'] then
    match t.drop 2 with
    | g1 :: g2 :: g3 :: g4 :: t3 =>
      match hex4 g1 g2 g3 g4 with
      | none => none
      | some code2 =>
        if 0xDC00 ≤ code2 ∧ code2 ≤ 0xDFFF then
          some (0x10000 + (code - 0xD800) * 1024 + (code2 - 0xDC00), t3)
        else some (code, t)
    | _ => none
  else some (code, t)

/-- `\uXXXX` escape: four hex digits; a high surrogate hands over to
`surrPair` (CPython `py_scanstring`). -/
def hexEsc : List Char → Option (Nat × List Char)
  | h1 :: h2 :: h3 :: h4 :: t =>
    match hex4 h1 h2 h3 h4 with
    | none => none
    | some code =>
      if 0xD800 ≤ code ∧ code ≤ 0xDBFF then surrPair code t
      else some (code, t)
  | _ => none

/-- One backslash escape inside a string (the backslash itself already
consumed): the short escapes of `json.decoder.BACKSLASH`, or `\uXXXX`. -/
def escPart : List Char → Option (Nat × List Char)
  | [] => none
  | e :: t =>
    if e = '\"' then some (34, t)
    else if e = '\\' then some (92, t)
    else if e = '/' then some (47, t)
    else if e = 'b' then some (8, t)
    else if e = 'f' then some (12, t)
    else if e = 'n' then some (10, t)
    else if e = 'r' then some (13, t)
    else if e = 't' then some (9, t)
    else if e = 'u' then hexEsc t
    else none

/-- Body of a string literal, after its opening quote (CPython
`py_scanstring` with `strict=True`: a literal control character below 0x20 is
an error).  `fuel` only bounds recursion; `strBody (l.length + 1) l` never
exhausts it, since every step consumes at least one character. -/
def strBody : Nat → List Char → Option (List Nat × List Char)
  | 0, _ => none
  | _ + 1, [] => none
  | f + 1, c :: t =>
    if c = '\"' then some ([], t)
    else if c = '\\' then
      match escPart t with
      | none => none
      | some (n, t2) => mapCons n (strBody f t2)
    else if c.toNat < 32 then none
    else mapCons c.toNat (strBody f t)

/-- String-literal body with sufficient fuel. -/
def parseStrBody (l : List Char) : Option (List Nat × List Char) :=
  strBody (l.length + 1) l

/-- Digit-string value. -/
def digitsToNat (l : List Char) : Nat :=
  l.foldl (fun a c => a * 10 + (c.toNat - 48)) 0

/-- Fraction part `(\.\d+)?` of `json.scanner.NUMBER_RE`: a dot with no
digit after it is simply not part of the number. -/
def fracPart (r : List Char) : List Char × List Char :=
  match r with
  | c :: t =>
    if c = '.' then
      if t.takeWhile (fun d => d.isDigit) = [] then ([], r)
      else (t.takeWhile (fun d => d.isDigit), t.dropWhile (fun d => d.isDigit))
    else ([], r)
  | [] => ([], r)

/-- Exponent part `([eE][-+]?\d+)?` of `NUMBER_RE`: an `e` not followed by
digits is not part of the number. -/
def expPart (r : List Char) : Option Int × List Char :=
  match r with
  | c :: t =>
    if c = 'e' ∨ c = 'E' then
      match t with
      | s :: t2 =>
        if s = '-' then
          if t2.takeWhile (fun d => d.isDigit) = [] then (none, r)
          else (some (-(digitsToNat (t2.takeWhile (fun d => d.isDigit)) : Int)),
            t2.dropWhile (fun d => d.isDigit))
        else if s = '+' then
          if t2.takeWhile (fun d => d.isDigit) = [] then (none, r)
          else (some ((digitsToNat (t2.takeWhile (fun d => d.isDigit)) : Int)),
            t2.dropWhile (fun d => d.isDigit))
        else
          if t.takeWhile (fun d => d.isDigit) = [] then (none, r)
          else (some ((digitsToNat (t.takeWhile (fun d => d.isDigit)) : Int)),
            t.dropWhile (fun d => d.isDigit))
      | [] => (none, r)
    else (none, r)
  | [] => (none, r)

/-- The integer part `(0|[1-9]\\d*)` of `json.scanner.NUMBER_RE`: a single
zero, or a nonzero digit followed by the maximal run of digits. -/
def intPart (l1 : List Char) : Option (List Char × List Char) :=
  match l1 with
  | [] => none
  | c :: t =>
    if c = '0' then some (['0'], t)
    else if c.isDigit then
      some (l1.takeWhile (fun d => d.isDigit), l1.dropWhile (fun d => d.isDigit))
    else none

/-- A number after its optional sign: integer part, then optional fraction
and exponent; a plain integer becomes `jint`, anything else a `jnum` standing
for `m * 10 ^ e`. -/
def numFrom (neg : Bool) (l1 : List Char) : Option (JVal × List Char) :=
  match intPart l1 with
  | none => none
  | some (intDs, r1) =>
    let fp := fracPart r1
    let ep := expPart fp.2
    if fp.1 = [] ∧ ep.1 = none then
      some (.jint (if neg then -(digitsToNat intDs : Int) else (digitsToNat intDs : Int)), r1)
    else
      let mant : Int := (digitsToNat (intDs ++ fp.1) : Int)
      some (.jnum (if neg then -mant else mant) ((ep.1.getD 0) - (fp.1.length : Int)), ep.2)

/-- A number literal, per `json.scanner.NUMBER_RE`
`-?(0|[1-9]\\d*)(\\.\\d+)?([eE][-+]?\\d+)?`. -/
def parseNumber (l : List Char) : Option (JVal × List Char) :=
  match l with
  | [] => none
  | c0 :: t0 => if c0 = '-' then numFrom true t0 else numFrom false (c0 :: t0)

/-- Replace in place if the key exists, append otherwise: the semantics of
building a Python `dict` from the decoded pairs (first position, last
value). -/
def insertKey : List (List Nat × JVal) → List Nat → JVal → List (List Nat × JVal)
  | [], k, v => [(k, v)]
  | (k1, v1) :: t, k, v =>
    if k1 = k then (k, v) :: t else (k1, v1) :: insertKey t k v

mutual

/-- One JSON value at the head of the input (CPython `py_make_scanner`'s
`_scan_once`: no leading whitespace is skipped here).  `fuel` only bounds
recursion depth; `l.length + 1` is always sufficient. -/
def parseValue : Nat → List Char → Option (JVal × List Char)
  | 0, _ => none
  | _ + 1, [] => none
  | f + 1, c :: t =>
    if c = obr then
      match skipWs t with
      | [] => none
      | c2 :: r =>
        if c2 = cbr then some (.jobj [], r)
        else Option.map (fun p => (JVal.jobj p.1, p.2)) (parseMembers f [] (c2 :: r))
    else if c = '[' then
      match skipWs t with
      | [] => none
      | c2 :: r =>
        if c2 = ']' then some (.jarr [], r)
        else
          match parseValue f (c2 :: r) with
          | none => none
          | some (v, r2) =>
            Option.map (fun p => (JVal.jarr p.1, p.2)) (parseItemsRest f [v] r2)
    else if c = '\"' then
      match parseStrBody t with
      | none => none
      | some (cs, r) => some (.jstr cs, r)
    else if (c :: t).take 4 = "null".data then some (.jnull, (c :: t).drop 4)
    else if (c :: t).take 4 = "true".data then some (.jbool true, (c :: t).drop 4)
    else if (c :: t).take 5 = "false".data then some (.jbool false, (c :: t).drop 5)
    else if (c :: t).take 3 = "NaN".data then some (.jnan, (c :: t).drop 3)
    else if (c :: t).take 8 = "Infinity".data then some (.jinf true, (c :: t).drop 8)
    else if (c :: t).take 9 = "-Infinity".data then some (.jinf false, (c :: t).drop 9)
    else parseNumber (c :: t)

/-- Members of an object after its `\x7b` and any whitespace, positioned at
the opening quote of a key (CPython `JSONObject`): `"key" ws : ws value ws`
then `\x7d` to finish or `, ws` to continue at the next key. -/
def parseMembers : Nat → List (List Nat × JVal) → List Char →
    Option (List (List Nat × JVal) × List Char)
  | 0, _, _ => none
  | _ + 1, _, [] => none
  | f + 1, acc, c :: t =>
    if c = '\"' then
      match parseStrBody t with
      | none => none
      | some (k, r1) =>
        match skipWs r1 with
        | [] => none
        | c2 :: r2 =>
          if c2 = ':' then
            match parseValue f (skipWs r2) with
            | none => none
            | some (v, r3) =>
              match skipWs r3 with
              | [] => none
              | c4 :: r4 =>
                if c4 = cbr then some (insertKey acc k v, r4)
                else if c4 = ',' then
                  match skipWs r4 with
                  | [] => none
                  | c5 :: r5 => parseMembers f (insertKey acc k v) (c5 :: r5)
                else none
          else none
    else none

/-- Items of an array after its first value (CPython `JSONArray`): `ws ]`
to finish or `ws , ws value` to continue. -/
def parseItemsRest : Nat → List JVal → List Char → Option (List JVal × List Char)
  | 0, _, _ => none
  | f + 1, acc, l =>
    match skipWs l with
    | [] => none
    | c :: r =>
      if c = ']' then some (acc, r)
      else if c = ',' then
        match parseValue f (skipWs r) with
        | none => none
        | some (v, r2) => parseItemsRest f (acc ++ [v]) r2
      else none

end

/-- `json.loads` on a list of code points: skip leading JSON whitespace, scan
one value, and require that only JSON whitespace remains (`Extra data`
otherwise). -/
def decodeL (l : List Char) : Option JVal :=
  let s := skipWs l
  match parseValue (s.length + 1) s with
  | none => none
  | some (v, r) => if skipWs r = [] then some v else none

/-- `json.loads` on a Python string. -/
def decode (s : String) : Option JVal := decodeL s.data

/-- `cleaned.startswith(p)` guarding `cleaned[len(p):]` (`app.py` lines
196-197 and 203-204). -/
def dropPre (p : List Char) (l : List Char) : List Char :=
  if l.take p.length = p then l.drop p.length else l

/-- `cleaned.endswith(p)` guarding `cleaned[:-len(p)]` (`app.py` lines
198-199 and 205-206). -/
def dropSuf (p : List Char) (l : List Char) : List Char :=
  if l.drop (l.length - p.length) = p then l.take (l.length - p.length) else l

/-- The markdown-fence cleaning of `app.py` lines 195-207: strip, drop a
leading ` ```json `, drop a trailing ` ``` `, strip, then once more drop a
leading ` ``` ` and a trailing ` ``` `, and strip. -/
def stripFencesL (l : List Char) : List Char :=
  pyStrip (dropSuf "```".data (dropPre "```".data
    (pyStrip (dropSuf "```".data (dropPre "```json".data (pyStrip l))))))

/-- Python `str.find` for a single character (only used when present). -/
def firstIdx (l : List Char) (c : Char) : Nat := l.findIdx (fun x => x == c)

/-- Python `str.rfind` for a single character (only used when present). -/
def lastIdx (l : List Char) (c : Char) : Nat :=
  l.length - 1 - l.reverse.findIdx (fun x => x == c)

/-- The brace slice of `app.py` lines 210-213: when both braces occur, keep
`cleaned[first_open : last_close + 1]`. -/
def sliceStep (l : List Char) : List Char :=
  if obr ∈ l ∧ cbr ∈ l then
    (l.drop (firstIdx l obr)).take (lastIdx l cbr + 1 - firstIdx l obr)
  else l

/-- The text handed to `json.loads` at `app.py` line 215. -/
def cleanedOf (l : List Char) : List Char := sliceStep (stripFencesL l)

/-- The diagnostic snippet shown by `st.code` at `app.py` line 219:
`response[:500] + "..." if len(response) > 500 else response`. -/
def snippetOf (raw : String) : String :=
  if raw.length > 500 then raw.take 500 ++ "..." else raw

/-- The spec's `ParseOutcome`: `Success(payload)` when `json.loads` returns,
`Failure(reason, snippet)` for the `JSONDecodeError` branch. -/
inductive ParseOutcome : Type where
  | success (v : JVal) : ParseOutcome
  | failure (reason : String) (snippet : String) : ParseOutcome

/-- The spec's `extract`: the cleaning-and-decoding block of
`generate_startup_ideas` (`app.py` lines 192-225) as a function from the raw
completion text to a `ParseOutcome`. -/
def extract (raw : String) : ParseOutcome :=
  match decodeL (cleanedOf raw.data) with
  | some v => ParseOutcome.success v
  | none => ParseOutcome.failure "malformed JSON" (snippetOf raw)

/-- `validate_startup_idea`'s copy of the `startswith` guard (`app.py` lines
279-280 and 286-287). -/
def dropPreV (p : List Char) (l : List Char) : List Char :=
  if l.take p.length = p then l.drop p.length else l

/-- `validate_startup_idea`'s copy of the `endswith` guard (`app.py` lines
281-282 and 288-289). -/
def dropSufV (p : List Char) (l : List Char) : List Char :=
  if l.drop (l.length - p.length) = p then l.take (l.length - p.length) else l

/-- `validate_startup_idea`'s copy of the fence cleaning (`app.py` lines
278-290). -/
def stripFencesV (l : List Char) : List Char :=
  pyStrip (dropSufV "```".data (dropPreV "```".data
    (pyStrip (dropSufV "```".data (dropPreV "```json".data (pyStrip l))))))

/-- `validate_startup_idea`'s copy of the brace slice (`app.py` lines
293-296). -/
def sliceStepV (l : List Char) : List Char :=
  if obr ∈ l ∧ cbr ∈ l then
    (l.drop (firstIdx l obr)).take (lastIdx l cbr + 1 - firstIdx l obr)
  else l

/-- `validate_startup_idea`'s copy of the diagnostic snippet (`app.py` line
302). -/
def snippetOfV (raw : String) : String :=
  if raw.length > 500 then raw.take 500 ++ "..." else raw

/-- The cleaning-and-decoding block of `validate_startup_idea` (`app.py`
lines 275-308), written out independently from that second copy of the
code. -/
def extractValidate (raw : String) : ParseOutcome :=
  match decodeL (sliceStepV (stripFencesV raw.data)) with
  | some v => ParseOutcome.success v
  | none => ParseOutcome.failure "malformed JSON" (snippetOfV raw)

/-- The spec's reading of step 6 in its own words: "locate the first `\x7b`
and the last `\x7d`, and slice the text to that inclusive span" — scan to the
first opening brace, then cut after the last closing brace. -/
def specSliceSpan (l : List Char) : List Char :=
  ((l.dropWhile (fun c => !(c == obr))).reverse.dropWhile (fun c => !(c == cbr))).reverse

/-- Code points of a Lean string, for writing expected payloads. -/
def cp (s : String) : List Nat := s.data.map Char.toNat

/-- Every character is JSON whitespace. -/
def allJWs (l : List Char) : Prop := ∀ c ∈ l, jsonWs c = true

/-- Every character is Python whitespace. -/
def allPyWs (l : List Char) : Prop := ∀ c ∈ l, pyIsSpace c = true

/-- No brace occurs. -/
def braceFree (l : List Char) : Prop := obr ∉ l ∧ cbr ∉ l

/-! ## Basic whitespace and list facts -/

theorem jsonWs_cases {c : Char} (h : jsonWs c = true) :
    c = ' ' ∨ c = '\t' ∨ c = '\n' ∨ c = '\r' := by
  have h2 : ((c = ' ' ∨ c = '\t') ∨ c = '\n') ∨ c = '\r' := by
    simpa [jsonWs, Bool.or_eq_true, beq_iff_eq] using h
  tauto

theorem jsonWs_pyIsSpace {c : Char} (h : jsonWs c = true) : pyIsSpace c = true := by
  rcases jsonWs_cases h with rfl | rfl | rfl | rfl <;> decide

theorem allJWs_allPyWs {l : List Char} (h : allJWs l) : allPyWs l :=
  fun c hc => jsonWs_pyIsSpace (h c hc)

theorem dropWhile_append_all {p : Char → Bool} {u : List Char}
    (h : ∀ c ∈ u, p c = true) (l : List Char) :
    (u ++ l).dropWhile p = l.dropWhile p := by
  induction u with
  | nil => rfl
  | cons a t ih =>
    rw [List.cons_append, List.dropWhile_cons, h a (List.mem_cons_self a t)]
    exact ih (fun c hc => h c (List.mem_cons_of_mem a hc))

theorem dropWhile_append_stop {p : Char → Bool} (u : List Char) {c : Char}
    (hc : p c = false) (l : List Char) :
    (u ++ c :: l).dropWhile p = u.dropWhile p ++ c :: l := by
  induction u with
  | nil => simp [List.dropWhile_cons, hc]
  | cons a t ih =>
    rw [List.cons_append, List.dropWhile_cons, List.dropWhile_cons]
    cases h : p a
    · simp
    · simpa using ih

theorem head_dropWhile_false {p : Char → Bool} {l r : List Char} {c : Char}
    (h : l.dropWhile p = c :: r) : p c = false := by
  induction l with
  | nil => simp [List.dropWhile] at h
  | cons a t ih =>
    rw [List.dropWhile_cons] at h
    split at h
    · exact ih h
    · cases h
      simp_all

theorem mem_dropWhile_mem {p : Char → Bool} {l : List Char} {x : Char}
    (h : x ∈ l.dropWhile p) : x ∈ l := by
  induction l with
  | nil => simp [List.dropWhile] at h
  | cons a t ih =>
    rw [List.dropWhile_cons] at h
    split at h
    · exact List.mem_cons_of_mem _ (ih h)
    · exact h

theorem dropWhile_all_nil {p : Char → Bool} {l : List Char}
    (h : ∀ c ∈ l, p c = true) : l.dropWhile p = [] := by
  induction l with
  | nil => rfl
  | cons a t ih =>
    rw [List.dropWhile_cons, h a (List.mem_cons_self a t)]
    exact ih (fun c hc => h c (List.mem_cons_of_mem a hc))

theorem takeWhile_all_mem {p : Char → Bool} {l : List Char} :
    ∀ c ∈ l.takeWhile p, p c = true := by
  intro c hc
  exact List.mem_takeWhile_imp hc

/-! ## Python strip lemmas -/

theorem pyStripLeft_decomp (l : List Char) :
    ∃ w, l = w ++ pyStripLeft l ∧ allPyWs w :=
  ⟨l.takeWhile pyIsSpace, (List.takeWhile_append_dropWhile pyIsSpace l).symm,
    takeWhile_all_mem⟩

theorem pyStripRight_decomp (l : List Char) :
    ∃ w, l = pyStripRight l ++ w ∧ allPyWs w := by
  refine ⟨(l.reverse.takeWhile pyIsSpace).reverse, ?_, ?_⟩
  · have h := (List.takeWhile_append_dropWhile pyIsSpace l.reverse).symm
    calc l = l.reverse.reverse := (List.reverse_reverse l).symm
    _ = (l.reverse.takeWhile pyIsSpace ++ l.reverse.dropWhile pyIsSpace).reverse := by rw [← h]
    _ = pyStripRight l ++ (l.reverse.takeWhile pyIsSpace).reverse := by
          rw [List.reverse_append]; rfl
  · intro c hc
    exact takeWhile_all_mem c (List.mem_reverse.mp hc)

theorem pyStripLeft_cons_false {c : Char} (h : pyIsSpace c = false)
    (l : List Char) : pyStripLeft (c :: l) = c :: l := by
  simp [pyStripLeft, List.dropWhile_cons, h]

theorem pyStripRight_concat_false {d : Char} (h : pyIsSpace d = false)
    (l : List Char) : pyStripRight (l ++ [d]) = l ++ [d] := by
  unfold pyStripRight
  rw [List.reverse_append, List.reverse_singleton, List.singleton_append,
    List.dropWhile_cons, h]
  simp

theorem pyStripLeft_head_false {l r : List Char} {c : Char}
    (h : pyStripLeft l = c :: r) : pyIsSpace c = false :=
  head_dropWhile_false h

theorem pyStripRight_last_false {l m : List Char} {d : Char}
    (h : pyStripRight l = m ++ [d]) : pyIsSpace d = false := by
  unfold pyStripRight at h
  have h2 : l.reverse.dropWhile pyIsSpace = d :: m.reverse := by
    have := congrArg List.reverse h
    simpa using this
  exact head_dropWhile_false h2

theorem pyStrip_no_op {l : List Char} {c d : Char} {r m : List Char}
    (e1 : l = c :: r) (e2 : l = m ++ [d])
    (h1 : pyIsSpace c = false) (h2 : pyIsSpace d = false) : pyStrip l = l := by
  unfold pyStrip
  rw [e1, pyStripLeft_cons_false h1, ← e1, e2, pyStripRight_concat_false h2]

theorem pyStripRight_append_all {w : List Char} (hw : allPyWs w)
    (l : List Char) : pyStripRight (l ++ w) = pyStripRight l := by
  unfold pyStripRight
  rw [List.reverse_append,
    dropWhile_append_all (fun c hc => hw c (List.mem_reverse.mp hc))]

theorem pyStripLeft_append_all {u : List Char} (hu : allPyWs u)
    (l : List Char) : pyStripLeft (u ++ l) = pyStripLeft l :=
  dropWhile_append_all hu l

theorem pyStrip_nil : pyStrip [] = [] := rfl

theorem pyStrip_ws_wrap {u w : List Char} (hu : allPyWs u) (hw : allPyWs w)
    (l : List Char) : pyStrip (u ++ l ++ w) = pyStrip l := by
  unfold pyStrip
  rw [List.append_assoc, pyStripLeft_append_all hu]
  obtain ⟨lw, hdec, hlw⟩ := pyStripLeft_decomp l
  cases e : pyStripLeft l with
  | nil =>
    have hall : ∀ c ∈ l ++ w, pyIsSpace c = true := by
      intro c hc
      rcases List.mem_append.mp hc with h | h
      · rw [hdec, e, List.append_nil] at h
        exact hlw c h
      · exact hw c h
    rw [show pyStripLeft (l ++ w) = [] from dropWhile_all_nil hall]
  | cons c r =>
    have hc : pyIsSpace c = false := pyStripLeft_head_false e
    have : pyStripLeft (l ++ w) = (c :: r) ++ w := by
      unfold pyStripLeft
      rw [hdec, e, List.append_assoc, List.cons_append,
        dropWhile_append_all hlw, List.dropWhile_cons, hc]
      rfl
    rw [this, pyStripRight_append_all hw]

theorem pyStrip_idem (l : List Char) : pyStrip (pyStrip l) = pyStrip l := by
  cases e : pyStrip l with
  | nil => rfl
  | cons c r =>
    rcases List.eq_nil_or_concat (c :: r) with h | ⟨m, d, hmd⟩
    · cases h
    · rw [List.concat_eq_append] at hmd
      have h1 : pyIsSpace c = false := by
        obtain ⟨w2, hw2, _⟩ := pyStripRight_decomp (pyStripLeft l)
        have e2 : pyStripLeft l = c :: (r ++ w2) := by
          have : pyStrip l ++ w2 = pyStripLeft l := hw2.symm
          rw [e] at this
          simpa using this.symm
        exact pyStripLeft_head_false e2
      have h2 : pyIsSpace d = false := by
        apply pyStripRight_last_false (l := pyStripLeft l)
        show pyStrip l = m ++ [d]
        rw [e, hmd]
      exact pyStrip_no_op rfl hmd h1 h2

theorem stripFencesL_pyStrip (l : List Char) :
    pyStrip (stripFencesL l) = stripFencesL l := by
  unfold stripFencesL
  exact pyStrip_idem _

/-! ## Take / drop helpers for the fence markers -/

theorem drop_last_eq (l : List Char) (n : Nat) :
    l.drop (l.length - n) = (l.reverse.take n).reverse := by
  have h := List.reverse_take (l := l.reverse) (n := n)
  rw [List.reverse_reverse, List.length_reverse] at h
  exact h.symm

theorem ends_iff_rev_take (l p : List Char) :
    l.drop (l.length - p.length) = p ↔ l.reverse.take p.length = p.reverse := by
  rw [drop_last_eq]
  constructor
  · intro h
    have := congrArg List.reverse h
    rwa [List.reverse_reverse] at this
  · intro h
    rw [h, List.reverse_reverse]

theorem mem_take_append_of_lt {u w : List Char} {c : Char} {n : Nat}
    (h : u.length < n) : c ∈ (u ++ c :: w).take n := by
  rw [List.take_append_eq_append_take]
  have h2 : n - u.length = (n - u.length - 1) + 1 := by omega
  rw [h2, List.take_succ_cons]
  exact List.mem_append.mpr (Or.inr (List.mem_cons_self _ _))

theorem take_cons_ne {c0 p0 : Char} {lt pt : List Char} (hne : c0 ≠ p0)
    (n : Nat) : (c0 :: lt).take (n + 1) ≠ p0 :: pt := by
  intro h
  rw [List.take_succ_cons] at h
  exact hne (List.cons.injEq .. ▸ h).1

/-! ## The brace slice -/

theorem findIdx_append_all_false {p : Char → Bool} {u : List Char}
    (h : ∀ a ∈ u, p a = false) (l : List Char) :
    (u ++ l).findIdx p = u.length + l.findIdx p := by
  induction u with
  | nil => simp
  | cons a t ih =>
    rw [List.cons_append, List.findIdx_cons, h a (List.mem_cons_self a t)]
    have := ih (fun c hc => h c (List.mem_cons_of_mem a hc))
    simp only [cond_false, this, List.length_cons]
    omega

theorem findIdx_append_first {u : List Char} {x : Char} (h : x ∉ u)
    (l : List Char) : (u ++ x :: l).findIdx (fun a => a == x) = u.length := by
  have hu : ∀ a ∈ u, (fun a => a == x) a = false := by
    intro a ha
    simp only [beq_eq_false_iff_ne]
    exact fun he => h (he ▸ ha)
  rw [findIdx_append_all_false hu, List.findIdx_cons]
  simp

theorem first_occ_decomp {x : Char} {l : List Char} (h : x ∈ l) :
    ∃ u t, l = u ++ x :: t ∧ x ∉ u ∧
      l.dropWhile (fun c => !(c == x)) = x :: t := by
  have hd : l.dropWhile (fun c => !(c == x)) ≠ [] := by
    intro he
    have hx := List.dropWhile_eq_nil_iff.mp he x h
    simp at hx
  cases e : l.dropWhile (fun c => !(c == x)) with
  | nil => exact absurd e hd
  | cons c t =>
    have hc : c = x := by
      have := head_dropWhile_false e
      simpa using this
    rw [hc] at e
    refine ⟨l.takeWhile (fun c => !(c == x)), t,
      by rw [← e, List.takeWhile_append_dropWhile], ?_, by rw [hc]⟩
    intro hx
    have := takeWhile_all_mem (p := fun c => !(c == x)) x hx
    simp at this

theorem sliceStep_decomp {u v m : List Char} (hu : obr ∉ u) (hv : cbr ∉ v) :
    sliceStep (u ++ (obr :: m ++ [cbr]) ++ v) = obr :: m ++ [cbr] := by
  have hshape : u ++ (obr :: m ++ [cbr]) ++ v = u ++ obr :: ((m ++ [cbr]) ++ v) := by
    simp
  have h1 : obr ∈ u ++ (obr :: m ++ [cbr]) ++ v := by
    rw [hshape]; exact List.mem_append.mpr (Or.inr (List.mem_cons_self _ _))
  have h2 : cbr ∈ u ++ (obr :: m ++ [cbr]) ++ v := by
    refine List.mem_append.mpr (Or.inl (List.mem_append.mpr (Or.inr ?_)))
    exact List.mem_cons_of_mem _ (List.mem_append.mpr (Or.inr (List.mem_singleton.mpr rfl)))
  have hfirst : firstIdx (u ++ (obr :: m ++ [cbr]) ++ v) obr = u.length := by
    unfold firstIdx
    rw [hshape]
    exact findIdx_append_first hu _
  have hrev : (u ++ (obr :: m ++ [cbr]) ++ v).reverse
      = v.reverse ++ cbr :: (m.reverse ++ obr :: u.reverse) := by
    simp
  have hlen : (u ++ (obr :: m ++ [cbr]) ++ v).length
      = u.length + m.length + 2 + v.length := by
    simp only [List.length_append, List.length_cons, List.length_nil]
    omega
  have hlast : lastIdx (u ++ (obr :: m ++ [cbr]) ++ v) cbr
      = u.length + m.length + 1 := by
    unfold lastIdx
    rw [hrev, findIdx_append_first (fun hc => hv (List.mem_reverse.mp hc)), hlen,
      List.length_reverse]
    omega
  unfold sliceStep
  rw [if_pos ⟨h1, h2⟩, hfirst, hlast]
  have hdrop : (u ++ (obr :: m ++ [cbr]) ++ v).drop u.length
      = (obr :: m ++ [cbr]) ++ v := by
    rw [List.append_assoc]
    exact List.drop_left u _
  rw [hdrop]
  have harith : u.length + m.length + 1 + 1 - u.length = (obr :: m ++ [cbr]).length := by
    simp only [List.length_cons, List.length_append, List.length_nil]
    omega
  rw [harith]
  exact List.take_left _ v

theorem sliceStep_spec {l : List Char} (h1 : obr ∈ l) (h2 : cbr ∈ l) :
    sliceStep l = specSliceSpan l := by
  obtain ⟨u, t, hl, hu, hdw⟩ := first_occ_decomp h1
  by_cases hc : cbr ∈ obr :: t
  · obtain ⟨v1, w, hrevEq, hv1, hdw2⟩ := first_occ_decomp
      (List.mem_reverse.mpr hc)
    have hback : obr :: t = w.reverse ++ cbr :: v1.reverse := by
      have := congrArg List.reverse hrevEq
      simpa using this
    cases ew : w.reverse with
    | nil =>
      rw [ew, List.nil_append] at hback
      have : obr = cbr := (List.cons.injEq .. ▸ hback).1
      exact absurd this (by decide)
    | cons c0 w2 =>
      rw [ew, List.cons_append] at hback
      have hc0 : obr = c0 := (List.cons.injEq .. ▸ hback).1
      have ht : t = w2 ++ cbr :: v1.reverse := (List.cons.injEq .. ▸ hback).2
      have hlshape : l = u ++ (obr :: w2 ++ [cbr]) ++ v1.reverse := by
        rw [hl, ht]
        simp only [List.cons_append, List.append_assoc, List.singleton_append,
          List.nil_append]
      have hspec : specSliceSpan l = obr :: w2 ++ [cbr] := by
        unfold specSliceSpan
        rw [hdw, hdw2, List.reverse_cons, ew, hc0, List.cons_append]
      rw [hspec, hlshape]
      exact sliceStep_decomp hu (fun hx => hv1 (List.mem_reverse.mp hx))
  · have hcu : cbr ∈ u := by
      rcases List.mem_append.mp (hl ▸ h2) with h | h
      · exact h
      · exact absurd h hc
    have hspec : specSliceSpan l = [] := by
      unfold specSliceSpan
      rw [hdw]
      have hall : (obr :: t).reverse.dropWhile (fun c => !(c == cbr)) = [] := by
        apply dropWhile_all_nil
        intro c hcr
        have hmem : c ∈ obr :: t := List.mem_reverse.mp hcr
        have hne : c ≠ cbr := fun he => hc (he ▸ hmem)
        simp [hne]
      rw [hall]
      rfl
    have hfirst : firstIdx l obr = u.length := by
      unfold firstIdx
      rw [hl]
      exact findIdx_append_first hu _
    have hrev : l.reverse = (obr :: t).reverse ++ u.reverse := by
      rw [hl]; simp
    have hnot : ∀ a ∈ (obr :: t).reverse, (fun a => a == cbr) a = false := by
      intro a ha
      simp only [beq_eq_false_iff_ne]
      intro he
      exact hc (he ▸ List.mem_reverse.mp ha)
    have hk : u.reverse.findIdx (fun a => a == cbr) < u.length := by
      have hlt : (u.reverse).findIdx (fun a => a == cbr) < (u.reverse).length :=
        List.findIdx_lt_length_of_exists ⟨cbr, List.mem_reverse.mpr hcu, by simp⟩
      simpa using hlt
    have hlen : l.length = u.length + 1 + t.length := by
      rw [hl]
      simp only [List.length_append, List.length_cons]
      omega
    have hlast : lastIdx l cbr
        = l.length - 1 - (t.length + 1 + u.reverse.findIdx (fun a => a == cbr)) := by
      unfold lastIdx
      rw [hrev, findIdx_append_all_false hnot]
      simp only [List.length_reverse, List.length_cons]
    unfold sliceStep
    rw [if_pos ⟨h1, h2⟩, hfirst, hlast, hspec]
    have hz : l.length - 1 - (t.length + 1 + u.reverse.findIdx (fun a => a == cbr)) + 1
        - u.length = 0 := by omega
    rw [hz]
    exact List.take_zero _

/-! ## Claims C2, C3, C6, C7, C8, C9, C10 -/

/-- C2: whenever the fence-stripped text contains both an opening and a
closing brace, the string submitted to the decoder is exactly the slice from
the first opening brace through the last closing brace (stated through the
independent scan-based description `specSliceSpan` of that span); and the
concrete prose-wrapped scenario decodes to `Success` of the object with field
`x` mapped to `1`. -/
theorem claim_C2 :
    (∀ raw : String, obr ∈ stripFencesL raw.data → cbr ∈ stripFencesL raw.data →
      cleanedOf raw.data = specSliceSpan (stripFencesL raw.data)) ∧
    extract "Here is the result:\n\x7b\"x\": 1\x7d\nHope this helps!"
      = ParseOutcome.success (JVal.jobj [(cp "x", JVal.jint 1)]) := by
  constructor
  · intro raw h1 h2
    exact sliceStep_spec h1 h2
  · rfl

/-- Witness for C2 at the concrete scenario input. -/
theorem claim_C2_witness :
    obr ∈ stripFencesL ("Here is the result:\n\x7b\"x\": 1\x7d\nHope this helps!").data ∧
    cleanedOf ("Here is the result:\n\x7b\"x\": 1\x7d\nHope this helps!").data
      = specSliceSpan (stripFencesL ("Here is the result:\n\x7b\"x\": 1\x7d\nHope this helps!").data) :=
  ⟨by decide, claim_C2.1 _ (by decide) (by decide)⟩

/-- C3: whenever strict decoding of the cleaned slice fails, the outcome is a
`Failure` with reason `"malformed JSON"` whose snippet is the raw input when
its length is at most 500, and its first 500 characters followed by `"..."`
otherwise. -/
theorem claim_C3 (raw : String) (h : decodeL (cleanedOf raw.data) = none) :
    extract raw = ParseOutcome.failure "malformed JSON"
      (if raw.length > 500 then raw.take 500 ++ "..." else raw) := by
  unfold extract
  rw [h]
  rfl

/-- Witness for C3 at `"not json at all"`. -/
theorem claim_C3_witness :
    decodeL (cleanedOf ("not json at all").data) = none ∧
    extract "not json at all" = ParseOutcome.failure "malformed JSON" "not json at all" :=
  ⟨rfl, (claim_C3 "not json at all" rfl).trans rfl⟩

/-- C6 counterexample: the top-level array text `"[1, 2]"` extracts to
`Success` of a payload that is not a JSON object, contradicting both that
`Success` implies a mapping and that non-object inputs produce `Failure`. -/
theorem claim_C6_counterexample :
    extract "[1, 2]" = ParseOutcome.success (JVal.jarr [JVal.jint 1, JVal.jint 2]) ∧
    ∀ fields, JVal.jarr [JVal.jint 1, JVal.jint 2] ≠ JVal.jobj fields :=
  ⟨rfl, fun _ h => JVal.noConfusion h⟩

/-- C6 amended: when the fence-stripped text lacks an opening or a closing
brace it is decoded directly (the brace slice is the identity), and `Success`
holds exactly when that text is valid JSON — of any kind, not only an
object. -/
theorem claim_C6 (raw : String)
    (h : obr ∉ stripFencesL raw.data ∨ cbr ∉ stripFencesL raw.data) :
    cleanedOf raw.data = stripFencesL raw.data ∧
    ∀ v, extract raw = ParseOutcome.success v ↔ decodeL (stripFencesL raw.data) = some v := by
  have hslice : sliceStep (stripFencesL raw.data) = stripFencesL raw.data := by
    unfold sliceStep
    rw [if_neg]
    rintro ⟨ha, hb⟩
    rcases h with h | h
    · exact h ha
    · exact h hb
  refine ⟨hslice, ?_⟩
  have hext : extract raw
      = match decodeL (stripFencesL raw.data) with
        | some v => ParseOutcome.success v
        | none => ParseOutcome.failure "malformed JSON" (snippetOf raw) := by
    unfold extract cleanedOf
    rw [hslice]
  intro v
  cases e : decodeL (stripFencesL raw.data) with
  | none => rw [hext, e]; simp
  | some w => rw [hext, e]; simp

/-- Witness for C6 at `"[1, 2]"`. -/
theorem claim_C6_witness :
    cleanedOf ("[1, 2]").data = stripFencesL ("[1, 2]").data :=
  (claim_C6 "[1, 2]" (Or.inl (by decide))).1

/-- C7 counterexample: `"``````json x"` strips to `"```json x"`, which is
itself an output of the fence-stripping step, yet stripping it again removes
a further seven characters. -/
theorem claim_C7_counterexample :
    stripFencesL (stripFencesL ("``````json x").data)
      ≠ stripFencesL ("``````json x").data := by decide

/-- C7 amended: fence-stripping is idempotent on every output that neither
starts nor ends with a fence marker ` ``` `; an output that retains such a
marker (possible, since the first pass removes seven characters of a
` ```json ` prefix even when more backticks follow) is stripped further. -/
theorem claim_C7 (l : List Char)
    (h1 : (stripFencesL l).take 3 ≠ "```".data)
    (h2 : (stripFencesL l).drop ((stripFencesL l).length - 3) ≠ "```".data) :
    stripFencesL (stripFencesL l) = stripFencesL l := by
  have hp : pyStrip (stripFencesL l) = stripFencesL l := stripFencesL_pyStrip l
  have h7 : (stripFencesL l).take ("```json".data).length ≠ "```json".data := by
    intro h
    apply h1
    have h3 := congrArg (List.take 3) h
    rw [List.take_take] at h3
    simpa using h3
  have h1' : (stripFencesL l).take ("```".data).length ≠ "```".data := h1
  have h2' : (stripFencesL l).drop ((stripFencesL l).length - ("```".data).length)
      ≠ "```".data := h2
  show pyStrip (dropSuf "```".data (dropPre "```".data
    (pyStrip (dropSuf "```".data (dropPre "```json".data
      (pyStrip (stripFencesL l))))))) = stripFencesL l
  rw [hp]
  unfold dropPre dropSuf
  rw [if_neg h7, if_neg h2', hp, if_neg h1', if_neg h2', hp]

/-- Witness for C7 at `"abc"`. -/
theorem claim_C7_witness :
    (stripFencesL ("abc".data)).take 3 ≠ "```".data ∧
    stripFencesL (stripFencesL ("abc".data)) = stripFencesL ("abc".data) :=
  ⟨by decide, claim_C7 _ (by decide) (by decide)⟩

/-- C8: extracting the empty string yields a `Failure` outcome. -/
theorem claim_C8 : extract "" = ParseOutcome.failure "malformed JSON" "" := rfl

/-- C9: the extractor is total — on every input it returns an outcome value,
either a `Success` or a `Failure`; no other result is possible. -/
theorem claim_C9 (raw : String) :
    (∃ v, extract raw = ParseOutcome.success v) ∨
    (∃ r s, extract raw = ParseOutcome.failure r s) := by
  cases hE : decodeL (cleanedOf raw.data) with
  | none => exact Or.inr ⟨_, _, by unfold extract; rw [hE]⟩
  | some v => exact Or.inl ⟨v, by unfold extract; rw [hE]⟩

/-- C10: the cleaning-and-decoding block of `validate_startup_idea` computes
the same `ParseOutcome` as that of `generate_startup_ideas` on every raw
completion. -/
theorem claim_C10 (raw : String) : extractValidate raw = extract raw := by
  have h1 : dropPreV = dropPre := rfl
  have h2 : dropSufV = dropSuf := rfl
  have h3 : sliceStepV = sliceStep := rfl
  have h4 : snippetOfV = snippetOf := rfl
  unfold extractValidate extract cleanedOf stripFencesV stripFencesL
  rw [h1, h2, h3, h4]

/-! ## Fence-stripping under wrapping (towards C4 and C5) -/

theorem allPyWs_nil : allPyWs [] := fun c hc => absurd hc (List.not_mem_nil c)

theorem allPyWs_nl : allPyWs ['\n'] := by
  intro c hc
  rw [List.mem_singleton.mp hc]
  decide

theorem allPyWs_append {u v : List Char} (hu : allPyWs u) (hv : allPyWs v) :
    allPyWs (u ++ v) := by
  intro c hc
  rcases List.mem_append.mp hc with h | h
  · exact hu c h
  · exact hv c h

theorem allPyWs_cons {c : Char} {u : List Char} (hc : pyIsSpace c = true)
    (hu : allPyWs u) : allPyWs (c :: u) := by
  intro x hx
  rcases List.mem_cons.mp hx with h | h
  · exact h ▸ hc
  · exact hu x h

theorem pyStrip_decomp (l : List Char) :
    ∃ u w, l = u ++ pyStrip l ++ w ∧ allPyWs u ∧ allPyWs w := by
  obtain ⟨u, hu1, hu2⟩ := pyStripLeft_decomp l
  obtain ⟨w, hw1, hw2⟩ := pyStripRight_decomp (pyStripLeft l)
  refine ⟨u, w, ?_, hu2, hw2⟩
  show l = u ++ pyStripRight (pyStripLeft l) ++ w
  rw [List.append_assoc, ← hw1, ← hu1]

theorem pyStrip_head_false {l r : List Char} {c : Char}
    (h : pyStrip l = c :: r) : pyIsSpace c = false := by
  obtain ⟨w, hw1, _⟩ := pyStripRight_decomp (pyStripLeft l)
  have : pyStripLeft l = c :: (r ++ w) := by
    rw [hw1]
    show pyStrip l ++ w = c :: (r ++ w)
    rw [h]
    rfl
  exact pyStripLeft_head_false this

theorem pyStrip_last_false {l m : List Char} {d : Char}
    (h : pyStrip l = m ++ [d]) : pyIsSpace d = false :=
  pyStripRight_last_false (l := pyStripLeft l) h

theorem dropPre_append_self (p Y : List Char) : dropPre p (p ++ Y) = Y := by
  unfold dropPre
  rw [if_pos (List.take_left p Y), List.drop_left]

theorem dropSuf_append_self (p Y : List Char) : dropSuf p (Y ++ p) = Y := by
  unfold dropSuf
  have hl : (Y ++ p).length - p.length = Y.length := by simp
  rw [hl, if_pos (List.drop_left Y p), List.take_left]

theorem take3_of_take7 {l : List Char}
    (h : l.take ("```json".data).length = "```json".data) :
    l.take 3 = "```".data := by
  have h3 := congrArg (List.take 3) h
  rw [List.take_take] at h3
  simpa using h3

theorem stripFencesL_no_fence {l : List Char}
    (h1 : (pyStrip l).take 3 ≠ "```".data)
    (h2 : (pyStrip l).drop ((pyStrip l).length - 3) ≠ "```".data) :
    stripFencesL l = pyStrip l := by
  have h7 : (pyStrip l).take ("```json".data).length ≠ "```json".data :=
    fun h => h1 (take3_of_take7 h)
  have h1' : (pyStrip l).take ("```".data).length ≠ "```".data := h1
  have h2' : (pyStrip l).drop ((pyStrip l).length - ("```".data).length)
      ≠ "```".data := h2
  unfold stripFencesL dropPre dropSuf
  rw [if_neg h7, if_neg h2', pyStrip_idem, if_neg h1', if_neg h2', pyStrip_idem]

theorem extract_success_iff {r1 r2 : String}
    (h : cleanedOf r1.data = cleanedOf r2.data) (v : JVal) :
    extract r1 = ParseOutcome.success v ↔ extract r2 = ParseOutcome.success v := by
  unfold extract
  rw [h]
  cases e : decodeL (cleanedOf r2.data) <;> simp

theorem dropPre_no {p l : List Char} (h : l.take p.length ≠ p) :
    dropPre p l = l := by
  unfold dropPre
  exact if_neg h

theorem dropSuf_no {p l : List Char} (h : l.drop (l.length - p.length) ≠ p) :
    dropSuf p l = l := by
  unfold dropSuf
  exact if_neg h

theorem dropSuf_ws_prefix {u0 a : List Char} (hu0 : allPyWs u0)
    (h2 : a.drop (a.length - 3) ≠ "```".data) :
    dropSuf "```".data (u0 ++ a) = u0 ++ a := by
  have hf3 : ("```".data : List Char).length = 3 := rfl
  apply dropSuf_no
  rw [hf3]
  intro heq
  by_cases h3 : 3 ≤ a.length
  · apply h2
    have e1 : u0.drop ((u0 ++ a).length - 3) = [] := by
      apply List.drop_eq_nil_of_le
      simp only [List.length_append]
      omega
    have e2 : (u0 ++ a).length - 3 - u0.length = a.length - 3 := by
      simp only [List.length_append]
      omega
    rw [List.drop_append_eq_append_drop, e1, e2, List.nil_append] at heq
    exact heq
  · push_neg at h3
    have hlen3 : ((u0 ++ a).drop ((u0 ++ a).length - 3)).length = 3 := by
      rw [heq]
      rfl
    rw [List.length_drop] at hlen3
    have hlt : (u0 ++ a).length - 3 < u0.length := by
      simp only [List.length_append] at hlen3 ⊢
      omega
    have e2 : a.drop ((u0 ++ a).length - 3 - u0.length) = a := by
      have hz : (u0 ++ a).length - 3 - u0.length = 0 := by
        simp only [List.length_append]
        omega
      rw [hz]
      exact List.drop_zero a
    rw [List.drop_append_eq_append_drop, e2] at heq
    cases e : u0.drop ((u0 ++ a).length - 3) with
    | nil =>
      have hle := List.drop_eq_nil_iff.mp e
      omega
    | cons c cc =>
      rw [e, List.cons_append,
        show ("```".data : List Char) = '\x60' :: "``".data from rfl] at heq
      have hc : c = '\x60' := (List.cons.injEq .. ▸ heq).1
      have hcmem : c ∈ u0 := List.mem_of_mem_drop (e ▸ List.mem_cons_self c cc)
      have hws := hu0 c hcmem
      rw [hc] at hws
      exact absurd hws (by decide)

theorem stripFences_wrapJson (T : String)
    (h1 : (pyStrip T.data).take 3 ≠ "```".data)
    (h2 : (pyStrip T.data).drop ((pyStrip T.data).length - 3) ≠ "```".data) :
    stripFencesL ("```json\n" ++ T ++ "\n```").data = pyStrip T.data := by
  have h1' : (pyStrip T.data).take ("```".data).length ≠ "```".data := h1
  have h2' : (pyStrip T.data).drop ((pyStrip T.data).length - ("```".data).length)
      ≠ "```".data := h2
  have hdata : ("```json\n" ++ T ++ "\n```").data
      = "```json".data ++ ((['\n'] ++ T.data ++ ['\n']) ++ "```".data) := by
    rw [String.data_append, String.data_append,
      show ("```json\n".data : List Char) = "```json".data ++ ['\n'] from rfl,
      show ("\n```".data : List Char) = ['\n'] ++ "```".data from rfl]
    simp [List.append_assoc]
  have hnoop : pyStrip ("```json".data ++ ((['\n'] ++ T.data ++ ['\n']) ++ "```".data))
      = "```json".data ++ ((['\n'] ++ T.data ++ ['\n']) ++ "```".data) := by
    apply pyStrip_no_op (c := '\x60')
      (r := "``json".data ++ ((['\n'] ++ T.data ++ ['\n']) ++ "```".data))
      (m := "```json".data ++ ((['\n'] ++ T.data ++ ['\n']) ++ "``".data)) (d := '\x60')
    · rw [show ("```json".data : List Char) = '\x60' :: "``json".data from rfl]
      rfl
    · rw [show ("```".data : List Char) = "``".data ++ ['\x60'] from rfl]
      simp [List.append_assoc]
    · decide
    · decide
  unfold stripFencesL
  rw [hdata, hnoop, dropPre_append_self, dropSuf_append_self,
    pyStrip_ws_wrap allPyWs_nl allPyWs_nl]
  unfold dropPre dropSuf
  rw [if_neg h1', if_neg h2', pyStrip_idem]

theorem pyStripLeft_f3 (X : List Char) :
    pyStripLeft ("```".data ++ X) = "```".data ++ X :=
  pyStripLeft_cons_false (c := '\x60') (by decide) ("``".data ++ X)

theorem pyStripRight_f3 : pyStripRight ("```".data : List Char) = "```".data := by
  have h := pyStripRight_concat_false (d := '\x60') (by decide) ("``".data)
  exact h

theorem stripFences_wrapPlain (T : String)
    (h2 : (pyStrip T.data).drop ((pyStrip T.data).length - 3) ≠ "```".data) :
    stripFencesL ("```\n" ++ T ++ "\n```").data = pyStrip T.data := by
  obtain ⟨lw, rw0, hT, hlw, hrw⟩ := pyStrip_decomp T.data
  have hdata : ("```\n" ++ T ++ "\n```").data
      = "```".data ++ ((['\n'] ++ T.data ++ ['\n']) ++ "```".data) := by
    rw [String.data_append, String.data_append,
      show ("```\n".data : List Char) = "```".data ++ ['\n'] from rfl,
      show ("\n```".data : List Char) = ['\n'] ++ "```".data from rfl]
    simp [List.append_assoc]
  have e1 : "```".data ++ ((['\n'] ++ T.data ++ ['\n']) ++ "```".data)
      = '\x60' :: ("``".data ++ ((['\n'] ++ T.data ++ ['\n']) ++ "```".data)) := rfl
  have e2 : "```".data ++ ((['\n'] ++ T.data ++ ['\n']) ++ "```".data)
      = ("```".data ++ ((['\n'] ++ T.data ++ ['\n']) ++ "``".data)) ++ ['\x60'] := by
    rw [show ("```".data : List Char) = "``".data ++ ['\x60'] from rfl]
    simp [List.append_assoc]
  have hnoop : pyStrip ("```".data ++ ((['\n'] ++ T.data ++ ['\n']) ++ "```".data))
      = "```".data ++ ((['\n'] ++ T.data ++ ['\n']) ++ "```".data) :=
    pyStrip_no_op e1 e2 (by decide) (by decide)
  have h7 : ("```".data ++ ((['\n'] ++ T.data ++ ['\n']) ++ "```".data)).take
      ("```json".data).length ≠ "```json".data := by
    intro h
    have h4 := congrArg (List.take 4) h
    rw [List.take_take] at h4
    have hmin : min 4 (("```json".data).length) = 4 := rfl
    rw [hmin] at h4
    have e4 : ("```".data ++ ((['\n'] ++ T.data ++ ['\n']) ++ "```".data)).take 4
        = "```".data ++ ['\n'] := by
      rw [List.take_append_eq_append_take]
      rfl
    rw [e4] at h4
    exact absurd h4 (by decide)
  have hshape3 : "```".data ++ ((['\n'] ++ T.data ++ ['\n']) ++ "```".data)
      = ("```".data ++ (['\n'] ++ T.data ++ ['\n'])) ++ "```".data := by
    simp [List.append_assoc]
  have hinner : "```".data ++ (['\n'] ++ T.data ++ ['\n'])
      = "```".data ++ (('\n' :: lw) ++ (pyStrip T.data ++ (rw0 ++ ['\n']))) := by
    conv_lhs => rw [hT]
    simp [List.append_assoc]
  have hu0 : allPyWs ('\n' :: lw) := allPyWs_cons (by decide) hlw
  have hv0 : allPyWs (rw0 ++ ['\n']) := allPyWs_append hrw allPyWs_nl
  unfold stripFencesL
  rw [hdata, hnoop, dropPre_no h7, hshape3, dropSuf_append_self, hinner]
  cases ea : pyStrip T.data with
  | nil =>
    have hws : allPyWs (('\n' :: lw) ++ ([] ++ (rw0 ++ ['\n']))) := by
      rw [List.nil_append]
      exact allPyWs_append hu0 hv0
    have hstrip4 : pyStrip ("```".data ++ (('\n' :: lw) ++ ([] ++ (rw0 ++ ['\n']))))
        = "```".data := by
      unfold pyStrip
      rw [pyStripLeft_f3, pyStripRight_append_all hws, pyStripRight_f3]
    rw [hstrip4]
    have hdp : dropPre "```".data ("```".data : List Char) = [] := by
      have h := dropPre_append_self "```".data []
      rwa [List.append_nil] at h
    rw [hdp]
    have hds : dropSuf "```".data ([] : List Char) = [] := dropSuf_no (by decide)
    rw [hds]
    rfl
  | cons c0 a' =>
    rcases List.eq_nil_or_concat (c0 :: a') with hnil | ⟨m0, d, hmd⟩
    · cases hnil
    · rw [List.concat_eq_append] at hmd
      have hd : pyIsSpace d = false := pyStrip_last_false (ea.trans hmd)
      have hstrip4 : pyStrip ("```".data ++ (('\n' :: lw) ++ ((c0 :: a') ++ (rw0 ++ ['\n']))))
          = "```".data ++ (('\n' :: lw) ++ (c0 :: a')) := by
        unfold pyStrip
        rw [pyStripLeft_f3]
        have hsh : "```".data ++ (('\n' :: lw) ++ ((c0 :: a') ++ (rw0 ++ ['\n'])))
            = ("```".data ++ (('\n' :: lw) ++ (c0 :: a'))) ++ (rw0 ++ ['\n']) := by
          simp [List.append_assoc]
        rw [hsh, pyStripRight_append_all hv0]
        have hsh2 : "```".data ++ (('\n' :: lw) ++ (c0 :: a'))
            = ("```".data ++ (('\n' :: lw) ++ m0)) ++ [d] := by
          rw [hmd]
          simp [List.append_assoc]
        rw [hsh2]
        exact pyStripRight_concat_false hd _
      rw [hstrip4, dropPre_append_self]
      have hds := dropSuf_ws_prefix (a := c0 :: a') hu0 (ea ▸ h2)
      rw [hds]
      have hfin : pyStrip (('\n' :: lw) ++ (c0 :: a')) = c0 :: a' := by
        have h := pyStrip_ws_wrap hu0 allPyWs_nil (c0 :: a')
        rw [List.append_nil] at h
        rw [h, ← ea, pyStrip_idem]
      rw [hfin]

/-- C4 counterexample: wrapping in a fence is not transparent to `extract`.
At `T = "x"` both sides fail but with different diagnostic snippets, so the
outcomes differ; and at `T = "```json\n42"` (whose stripped form begins with
a fence marker) the direct extraction succeeds while the wrapped one fails
outright. -/
theorem claim_C4_counterexample :
    extract ("```json\n" ++ "x" ++ "\n```") ≠ extract "x" ∧
    extract "```json\n42" = ParseOutcome.success (JVal.jint 42) ∧
    extract ("```json\n" ++ "```json\n42" ++ "\n```")
      = ParseOutcome.failure "malformed JSON" "```json\n```json\n42\n```" := by
  refine ⟨?_, rfl, rfl⟩
  intro h
  have h1 : extract ("```json\n" ++ "x" ++ "\n```")
      = ParseOutcome.failure "malformed JSON" "```json\nx\n```" := rfl
  have h2 : extract "x" = ParseOutcome.failure "malformed JSON" "x" := rfl
  rw [h1, h2] at h
  injection h with _ h3
  exact absurd h3 (by decide)

/-- C4 amended: for every `T` whose stripped text neither starts nor ends
with a fence marker ` ``` `, wrapping `T` as ` ```json\nT\n``` ` or as
` ```\nT\n``` ` leaves the text submitted to the decoder unchanged, so the
wrapped and direct extractions are `Success` of the same payload or both
`Failure` (the failure snippets necessarily quote their different raw
inputs). -/
theorem claim_C4 (T : String)
    (h1 : (pyStrip T.data).take 3 ≠ "```".data)
    (h2 : (pyStrip T.data).drop ((pyStrip T.data).length - 3) ≠ "```".data) :
    cleanedOf ("```json\n" ++ T ++ "\n```").data = cleanedOf T.data ∧
    cleanedOf ("```\n" ++ T ++ "\n```").data = cleanedOf T.data ∧
    (∀ v, extract ("```json\n" ++ T ++ "\n```") = ParseOutcome.success v
      ↔ extract T = ParseOutcome.success v) ∧
    (∀ v, extract ("```\n" ++ T ++ "\n```") = ParseOutcome.success v
      ↔ extract T = ParseOutcome.success v) := by
  have hA := stripFences_wrapJson T h1 h2
  have hB := stripFences_wrapPlain T h2
  have hC := stripFencesL_no_fence h1 h2
  have hc1 : cleanedOf ("```json\n" ++ T ++ "\n```").data = cleanedOf T.data := by
    unfold cleanedOf
    rw [hA, hC]
  have hc2 : cleanedOf ("```\n" ++ T ++ "\n```").data = cleanedOf T.data := by
    unfold cleanedOf
    rw [hB, hC]
  exact ⟨hc1, hc2, fun v => extract_success_iff hc1 v, fun v => extract_success_iff hc2 v⟩

/-- Witness for C4 at `T` equal to the object text with field `x` mapped
to `1`. -/
theorem claim_C4_witness :
    cleanedOf ("```json\n" ++ "\x7b\"x\": 1\x7d" ++ "\n```").data
      = cleanedOf ("\x7b\"x\": 1\x7d").data ∧
    (extract ("```\n" ++ "\x7b\"x\": 1\x7d" ++ "\n```")
        = ParseOutcome.success (JVal.jobj [(cp "x", JVal.jint 1)])
      ↔ extract "\x7b\"x\": 1\x7d"
        = ParseOutcome.success (JVal.jobj [(cp "x", JVal.jint 1)])) :=
  ⟨(claim_C4 "\x7b\"x\": 1\x7d" (by decide) (by decide)).1,
    (claim_C4 "\x7b\"x\": 1\x7d" (by decide) (by decide)).2.2.2 _⟩

/-! ## The brace-framed invariant of the cleaning pipeline (towards C5) -/

theorem mem_pyStripRight_mem {l : List Char} {x : Char}
    (h : x ∈ pyStripRight l) : x ∈ l := by
  unfold pyStripRight at h
  exact List.mem_reverse.mp (mem_dropWhile_mem (List.mem_reverse.mp h))

theorem pyStripLeft_brace (u w : List Char) :
    pyStripLeft (u ++ (obr :: w)) = pyStripLeft u ++ (obr :: w) :=
  dropWhile_append_stop u (by decide) w

theorem pyStripRight_brace (w v : List Char) :
    pyStripRight ((w ++ [cbr]) ++ v) = (w ++ [cbr]) ++ pyStripRight v := by
  unfold pyStripRight
  rw [List.reverse_append,
    show (w ++ [cbr]).reverse = cbr :: w.reverse from by simp,
    dropWhile_append_stop v.reverse (by decide), List.reverse_append]
  simp

theorem pyStrip_brace_inv (u v m : List Char) :
    pyStrip (u ++ ((obr :: m ++ [cbr]) ++ v))
      = pyStripLeft u ++ ((obr :: m ++ [cbr]) ++ pyStripRight v) := by
  unfold pyStrip
  have hsh1 : u ++ ((obr :: m ++ [cbr]) ++ v) = u ++ (obr :: ((m ++ [cbr]) ++ v)) := by
    simp
  rw [hsh1, pyStripLeft_brace]
  have hsh2 : pyStripLeft u ++ obr :: ((m ++ [cbr]) ++ v)
      = ((pyStripLeft u ++ (obr :: m)) ++ [cbr]) ++ v := by
    simp
  rw [hsh2, pyStripRight_brace]
  simp

theorem dropPre_brace_inv {p u : List Char} (hp : obr ∉ p) (hu : obr ∉ u)
    (v m : List Char) :
    ∃ u', dropPre p (u ++ ((obr :: m ++ [cbr]) ++ v))
      = u' ++ ((obr :: m ++ [cbr]) ++ v) ∧ obr ∉ u' := by
  have hsh : u ++ ((obr :: m ++ [cbr]) ++ v) = u ++ (obr :: ((m ++ [cbr]) ++ v)) := by
    simp
  unfold dropPre
  by_cases hc : (u ++ ((obr :: m ++ [cbr]) ++ v)).take p.length = p
  · have hlen : p.length ≤ u.length := by
      by_contra hlt
      push_neg at hlt
      have hm : obr ∈ (u ++ obr :: ((m ++ [cbr]) ++ v)).take p.length :=
        mem_take_append_of_lt hlt
      rw [← hsh, hc] at hm
      exact hp hm
    rw [if_pos hc, hsh, List.drop_append_of_le_length hlen]
    exact ⟨u.drop p.length, by simp, fun hm => hu (List.mem_of_mem_drop hm)⟩
  · rw [if_neg hc]
    exact ⟨u, rfl, hu⟩

theorem dropSuf_brace_inv {p v : List Char} (hp : cbr ∉ p) (hv : cbr ∉ v)
    (u m : List Char) :
    ∃ v', dropSuf p (u ++ ((obr :: m ++ [cbr]) ++ v))
      = u ++ ((obr :: m ++ [cbr]) ++ v') ∧ cbr ∉ v' := by
  have hrev : (u ++ ((obr :: m ++ [cbr]) ++ v)).reverse
      = v.reverse ++ cbr :: ((m.reverse ++ [obr]) ++ u.reverse) := by
    simp
  unfold dropSuf
  by_cases hc : (u ++ ((obr :: m ++ [cbr]) ++ v)).drop
      ((u ++ ((obr :: m ++ [cbr]) ++ v)).length - p.length) = p
  · have hlen : p.length ≤ v.length := by
      by_contra hlt
      push_neg at hlt
      have hm : cbr ∈ (u ++ ((obr :: m ++ [cbr]) ++ v)).reverse.take p.length := by
        rw [hrev]
        exact mem_take_append_of_lt (by simpa using hlt)
      have htk : (u ++ ((obr :: m ++ [cbr]) ++ v)).reverse.take p.length
          = ((u ++ ((obr :: m ++ [cbr]) ++ v)).drop
              ((u ++ ((obr :: m ++ [cbr]) ++ v)).length - p.length)).reverse := by
        rw [drop_last_eq, List.reverse_reverse]
      rw [htk, hc] at hm
      exact hp (List.mem_reverse.mp hm)
    have hsh : u ++ ((obr :: m ++ [cbr]) ++ v) = (u ++ (obr :: m ++ [cbr])) ++ v := by
      simp
    have hlen2 : (u ++ (obr :: m ++ [cbr])).length
        ≤ (u ++ (obr :: m ++ [cbr]) ++ v).length - p.length := by
      simp only [List.length_append, List.length_cons]
      omega
    rw [if_pos hc, hsh, List.take_append_eq_append_take,
      List.take_of_length_le hlen2]
    refine ⟨v.take ((u ++ (obr :: m ++ [cbr]) ++ v).length - p.length
      - (u ++ (obr :: m ++ [cbr])).length), by simp,
      fun hm => hv (List.mem_of_mem_take hm)⟩
  · rw [if_neg hc]
    exact ⟨v, rfl, hv⟩

theorem stripFences_brace_inv {u v : List Char} (hu : obr ∉ u) (hv : cbr ∉ v)
    (m : List Char) :
    ∃ u' v', stripFencesL (u ++ ((obr :: m ++ [cbr]) ++ v))
      = u' ++ ((obr :: m ++ [cbr]) ++ v') ∧ obr ∉ u' ∧ cbr ∉ v' := by
  unfold stripFencesL
  rw [pyStrip_brace_inv]
  have hu1 : obr ∉ pyStripLeft u := fun h => hu (mem_dropWhile_mem h)
  have hv1 : cbr ∉ pyStripRight v := fun h => hv (mem_pyStripRight_mem h)
  obtain ⟨u2, e2, hu2⟩ := dropPre_brace_inv (p := "```json".data) (by decide) hu1
    (pyStripRight v) m
  rw [e2]
  obtain ⟨v3, e3, hv3⟩ := dropSuf_brace_inv (p := "```".data) (by decide) hv1 u2 m
  rw [e3]
  rw [pyStrip_brace_inv]
  have hu4 : obr ∉ pyStripLeft u2 := fun h => hu2 (mem_dropWhile_mem h)
  have hv4 : cbr ∉ pyStripRight v3 := fun h => hv3 (mem_pyStripRight_mem h)
  obtain ⟨u5, e5, hu5⟩ := dropPre_brace_inv (p := "```".data) (by decide) hu4
    (pyStripRight v3) m
  rw [e5]
  obtain ⟨v6, e6, hv6⟩ := dropSuf_brace_inv (p := "```".data) (by decide) hv4 u5 m
  rw [e6]
  rw [pyStrip_brace_inv]
  exact ⟨pyStripLeft u5, pyStripRight v6, rfl,
    fun h => hu5 (mem_dropWhile_mem h), fun h => hv6 (mem_pyStripRight_mem h)⟩

theorem pyStrip_braced (m : List Char) :
    pyStrip (obr :: m ++ [cbr]) = obr :: m ++ [cbr] :=
  pyStrip_no_op rfl (show obr :: m ++ [cbr] = (obr :: m) ++ [cbr] from rfl)
    (by decide) (by decide)

theorem stripFencesL_braced (m : List Char) :
    stripFencesL (obr :: m ++ [cbr]) = obr :: m ++ [cbr] := by
  have hpy := pyStrip_braced m
  have h1 : (pyStrip (obr :: m ++ [cbr])).take 3 ≠ "```".data := by
    rw [hpy, show ("```".data : List Char) = '\x60' :: "``".data from rfl]
    exact take_cons_ne (by decide) 2
  have h2 : (pyStrip (obr :: m ++ [cbr])).drop
      ((pyStrip (obr :: m ++ [cbr])).length - 3) ≠ "```".data := by
    rw [hpy]
    intro h
    have h' : (obr :: m ++ [cbr]).drop
        ((obr :: m ++ [cbr]).length - ("```".data).length) = "```".data := h
    have hrevtake := (ends_iff_rev_take (obr :: m ++ [cbr]) "```".data).mp h'
    rw [show (obr :: m ++ [cbr]).reverse = cbr :: (m.reverse ++ [obr]) from by simp,
      show (("```".data : List Char)).reverse = '\x60' :: "``".data from rfl] at hrevtake
    exact take_cons_ne (by decide) 2 hrevtake
  rw [stripFencesL_no_fence h1 h2, hpy]

theorem cleanedOf_braced (m : List Char) :
    cleanedOf (obr :: m ++ [cbr]) = obr :: m ++ [cbr] := by
  unfold cleanedOf
  rw [stripFencesL_braced]
  have hsh : ([] : List Char) ++ (obr :: m ++ [cbr]) ++ [] = obr :: m ++ [cbr] := by
    simp
  calc sliceStep (obr :: m ++ [cbr])
      = sliceStep ([] ++ (obr :: m ++ [cbr]) ++ []) := by rw [hsh]
    _ = obr :: m ++ [cbr] :=
        sliceStep_decomp (List.not_mem_nil obr) (List.not_mem_nil cbr)

/-- C5 counterexample: with `prose = "x"`, `prose2 = ""` (neither containing
a brace) and `T = "42"`, the direct extraction succeeds with the integer `42`
while the prose-wrapped extraction fails — the claim's guarantee does not
hold for a `T` without braces. -/
theorem claim_C5_counterexample :
    obr ∉ ("x" : String).data ∧ cbr ∉ ("x" : String).data ∧
    obr ∉ ("" : String).data ∧ cbr ∉ ("" : String).data ∧
    extract ("x" ++ "42" ++ "") ≠ extract "42" := by
  refine ⟨by decide, by decide, by decide, by decide, ?_⟩
  intro h
  have h1 : extract ("x" ++ "42" ++ "")
      = ParseOutcome.failure "malformed JSON" "x42" := rfl
  have h2 : extract "42" = ParseOutcome.success (JVal.jint 42) := rfl
  rw [h1, h2] at h
  exact ParseOutcome.noConfusion h

/-- C5 amended: when `T` itself begins with `\x7b` and ends with `\x7d` (the
single-top-level-object shape the slice step assumes), surrounding it with
brace-free prose leaves the text submitted to the decoder unchanged, so the
wrapped and direct extractions are `Success` of the same payload or both
`Failure` (failure snippets quote their different raw inputs). -/
theorem claim_C5 (T prose prose2 : String) (m : List Char)
    (hp1 : obr ∉ prose.data) (_hp2 : cbr ∉ prose.data)
    (_hq1 : obr ∉ prose2.data) (hq2 : cbr ∉ prose2.data)
    (hT : T.data = obr :: m ++ [cbr]) :
    cleanedOf (prose ++ T ++ prose2).data = cleanedOf T.data ∧
    ∀ v, extract (prose ++ T ++ prose2) = ParseOutcome.success v
      ↔ extract T = ParseOutcome.success v := by
  have hdata : (prose ++ T ++ prose2).data
      = prose.data ++ ((obr :: m ++ [cbr]) ++ prose2.data) := by
    rw [String.data_append, String.data_append, hT]
    simp [List.append_assoc]
  have hclean2 : cleanedOf T.data = T.data := by
    rw [hT]
    exact cleanedOf_braced m
  have hcomb : cleanedOf (prose ++ T ++ prose2).data = T.data := by
    unfold cleanedOf
    rw [hdata]
    obtain ⟨u', v', he, hu', hv'⟩ := stripFences_brace_inv hp1 hq2 m
    rw [he]
    have hsh : u' ++ ((obr :: m ++ [cbr]) ++ v') = u' ++ (obr :: m ++ [cbr]) ++ v' := by
      simp
    rw [hsh, sliceStep_decomp hu' hv', hT]
  have heq : cleanedOf (prose ++ T ++ prose2).data = cleanedOf T.data :=
    hcomb.trans hclean2.symm
  exact ⟨heq, fun v => extract_success_iff heq v⟩

/-- Witness for C5 at the concrete scenario's prose and payload. -/
theorem claim_C5_witness :
    obr ∉ ("Here is the result:\n" : String).data ∧
    cbr ∉ ("\nHope this helps!" : String).data ∧
    ("\x7b\"x\": 1\x7d" : String).data = obr :: ("\"x\": 1").data ++ [cbr] ∧
    cleanedOf ("Here is the result:\n" ++ "\x7b\"x\": 1\x7d" ++ "\nHope this helps!").data
      = cleanedOf ("\x7b\"x\": 1\x7d" : String).data :=
  ⟨by decide, by decide, rfl,
    (claim_C5 "\x7b\"x\": 1\x7d" "Here is the result:\n" "\nHope this helps!"
      ("\"x\": 1").data (by decide) (by decide) (by decide) (by decide) rfl).1⟩

/-! ## Parser groundwork (towards C1) -/

theorem allJWs_nil : allJWs [] := fun c hc => absurd hc (List.not_mem_nil c)

theorem skipWs_all_nil {w : List Char} (hw : allJWs w) : skipWs w = [] :=
  dropWhile_all_nil hw

theorem skipWs_decomp (l : List Char) :
    l = l.takeWhile jsonWs ++ skipWs l ∧ allJWs (l.takeWhile jsonWs) :=
  ⟨(List.takeWhile_append_dropWhile jsonWs l).symm, fun c hc => takeWhile_all_mem c hc⟩

theorem skipWs_head_false {l r : List Char} {c : Char}
    (h : skipWs l = c :: r) : jsonWs c = false :=
  head_dropWhile_false h

theorem skipWs_append_nil {w t : List Char} (hw : allJWs w)
    (ht : skipWs t = []) : skipWs (t ++ w) = [] := by
  have hall : ∀ c ∈ t ++ w, jsonWs c = true := by
    intro c hc
    rcases List.mem_append.mp hc with h | h
    · exact List.dropWhile_eq_nil_iff.mp ht c h
    · exact hw c h
  exact dropWhile_all_nil hall

theorem skipWs_append_cons {w t r : List Char} {c : Char}
    (ht : skipWs t = c :: r) : skipWs (t ++ w) = c :: (r ++ w) := by
  obtain ⟨hdec, hall⟩ := skipWs_decomp t
  have hc : jsonWs c = false := skipWs_head_false ht
  calc skipWs (t ++ w)
      = skipWs ((t.takeWhile jsonWs ++ (c :: r)) ++ w) := by rw [← ht, ← hdec]
    _ = c :: (r ++ w) := by
        unfold skipWs
        rw [List.append_assoc, List.cons_append,
          dropWhile_append_all hall, List.dropWhile_cons, hc]
        rfl

theorem jws_ne_all {c : Char} (h : jsonWs c = true) :
    c ≠ obr ∧ c ≠ '[' ∧ c ≠ '\"' ∧ c ≠ '\\' ∧ c ≠ '-' ∧ c ≠ '.' ∧
    c ≠ 'e' ∧ c ≠ 'E' ∧ c ≠ '+' ∧ c ≠ 'u' ∧ c.isDigit = false := by
  rcases jsonWs_cases h with rfl | rfl | rfl | rfl <;> exact ⟨by decide, by decide,
    by decide, by decide, by decide, by decide, by decide, by decide, by decide,
    by decide, by decide⟩

theorem parseNumber_ws_none {t : List Char} {c : Char} (hc : jsonWs c = true) :
    parseNumber (c :: t) = none := by
  rcases jsonWs_cases hc with rfl | rfl | rfl | rfl <;> rfl

theorem parseValue_ws_none {w : List Char} (hw : allJWs w) :
    ∀ f, parseValue f w = none := by
  intro f
  cases f with
  | zero => rfl
  | succ f =>
    cases w with
    | nil => rfl
    | cons c t =>
      have hc : jsonWs c = true := hw c (List.mem_cons_self c t)
      rcases jsonWs_cases hc with rfl | rfl | rfl | rfl <;> rfl

theorem parseMembers_ws_none {w : List Char} (hw : allJWs w) :
    ∀ f acc, parseMembers f acc w = none := by
  intro f acc
  cases f with
  | zero => rfl
  | succ f =>
    cases w with
    | nil => rfl
    | cons c t =>
      have hc : jsonWs c = true := hw c (List.mem_cons_self c t)
      rcases jsonWs_cases hc with rfl | rfl | rfl | rfl <;> rfl

theorem parseItemsRest_ws_none {w : List Char} (hw : allJWs w) :
    ∀ f acc, parseItemsRest f acc w = none := by
  intro f acc
  cases f with
  | zero => rfl
  | succ f =>
    unfold parseItemsRest
    rw [skipWs_all_nil hw]


theorem surrPair_suffix {code : Nat} {t : List Char} {p : Nat × List Char}
    (h : surrPair code t = some p) : ∃ m, t = m ++ p.2 := by
  unfold surrPair at h
  by_cases hc : t.take 2 = ['\\', 'u']
  · rw [if_pos hc] at h
    cases hd : t.drop 2 with
    | nil => rw [hd] at h; exact Option.noConfusion h
    | cons g1 t1 =>
      cases t1 with
      | nil => rw [hd] at h; exact Option.noConfusion h
      | cons g2 t2 =>
        cases t2 with
        | nil => rw [hd] at h; exact Option.noConfusion h
        | cons g3 t3 =>
          cases t3 with
          | nil => rw [hd] at h; exact Option.noConfusion h
          | cons g4 t4 =>
            rw [hd] at h
            dsimp only at h
            cases hx : hex4 g1 g2 g3 g4 with
            | none => rw [hx] at h; exact Option.noConfusion h
            | some code2 =>
              rw [hx] at h
              dsimp only at h
              split_ifs at h with h2
              · have hp := Option.some.inj h
                subst hp
                refine ⟨['\\', 'u', g1, g2, g3, g4], ?_⟩
                have := List.take_append_drop 2 t
                rw [hc, hd] at this
                rw [← this]
                rfl
              · have hp := Option.some.inj h
                subst hp
                exact ⟨[], rfl⟩
  · rw [if_neg hc] at h
    have hp := Option.some.inj h
    subst hp
    exact ⟨[], rfl⟩

theorem hexEsc_suffix {l : List Char} {p : Nat × List Char}
    (h : hexEsc l = some p) : ∃ m, m ≠ [] ∧ l = m ++ p.2 := by
  unfold hexEsc at h
  split at h
  next h1 h2 h3 h4 t =>
    cases hc : hex4 h1 h2 h3 h4 <;> simp only [hc] at h
    · exact Option.noConfusion h
    · split_ifs at h with hs
      · obtain ⟨m, hm⟩ := surrPair_suffix h
        exact ⟨[h1, h2, h3, h4] ++ m, by simp, by rw [hm]; simp⟩
      · have hp := Option.some.inj h
        subst hp
        exact ⟨[h1, h2, h3, h4], by simp, by simp⟩
  next => exact Option.noConfusion h

theorem escPart_suffix {l : List Char} {p : Nat × List Char}
    (h : escPart l = some p) : ∃ m, m ≠ [] ∧ l = m ++ p.2 := by
  cases l with
  | nil => exact Option.noConfusion h
  | cons e t =>
    simp only [escPart] at h
    split_ifs at h
    case _ =>
      have hp := Option.some.inj h
      subst hp
      exact ⟨[e], by simp, by simp⟩
    case _ =>
      have hp := Option.some.inj h
      subst hp
      exact ⟨[e], by simp, by simp⟩
    case _ =>
      have hp := Option.some.inj h
      subst hp
      exact ⟨[e], by simp, by simp⟩
    case _ =>
      have hp := Option.some.inj h
      subst hp
      exact ⟨[e], by simp, by simp⟩
    case _ =>
      have hp := Option.some.inj h
      subst hp
      exact ⟨[e], by simp, by simp⟩
    case _ =>
      have hp := Option.some.inj h
      subst hp
      exact ⟨[e], by simp, by simp⟩
    case _ =>
      have hp := Option.some.inj h
      subst hp
      exact ⟨[e], by simp, by simp⟩
    case _ =>
      have hp := Option.some.inj h
      subst hp
      exact ⟨[e], by simp, by simp⟩
    case _ =>
      obtain ⟨m, hm, he⟩ := hexEsc_suffix h
      exact ⟨e :: m, by simp, by rw [List.cons_append, ← he]⟩

theorem strBody_suffix : ∀ {f : Nat} {l : List Char} {p : List Nat × List Char},
    strBody f l = some p → ∃ m, m ≠ [] ∧ l = m ++ p.2 := by
  intro f
  induction f with
  | zero => intro l p h; exact Option.noConfusion h
  | succ f ih =>
    intro l p h
    cases l with
    | nil => exact Option.noConfusion h
    | cons c t =>
      simp only [strBody] at h
      split_ifs at h
      case _ =>
        have hp := Option.some.inj h
        subst hp
        exact ⟨[c], by simp, by simp⟩
      case _ =>
        cases he : escPart t with
        | none => rw [he] at h; exact Option.noConfusion h
        | some q =>
          obtain ⟨n, t2⟩ := q
          rw [he] at h
          simp only [mapCons] at h
          cases hs : strBody f t2 with
          | none => rw [hs] at h; exact Option.noConfusion h
          | some p2 =>
            rw [hs] at h
            have hp := Option.some.inj h
            subst hp
            obtain ⟨me, hme, hte⟩ := escPart_suffix he
            obtain ⟨ms, hms, hts⟩ := ih hs
            have hte2 : t = me ++ t2 := hte
            refine ⟨c :: me ++ ms, by simp, ?_⟩
            show c :: t = c :: me ++ ms ++ p2.2
            rw [hte2, hts]
            simp [List.append_assoc]
      case _ =>
        simp only [mapCons] at h
        cases hs : strBody f t with
        | none => rw [hs] at h; exact Option.noConfusion h
        | some p2 =>
          rw [hs] at h
          have hp := Option.some.inj h
          subst hp
          obtain ⟨ms, hms, hts⟩ := ih hs
          exact ⟨c :: ms, by simp, by rw [List.cons_append, ← hts]⟩

theorem parseStrBody_suffix {l : List Char} {p : List Nat × List Char}
    (h : parseStrBody l = some p) : ∃ m, m ≠ [] ∧ l = m ++ p.2 :=
  strBody_suffix h

theorem fracPart_suffix (r : List Char) : ∃ m, r = m ++ (fracPart r).2 := by
  unfold fracPart
  split
  next c t =>
    split_ifs with h1 h2
    · exact ⟨[], rfl⟩
    · refine ⟨c :: t.takeWhile (fun d => d.isDigit), ?_⟩
      show c :: t = (c :: t.takeWhile (fun d => d.isDigit))
        ++ t.dropWhile (fun d => d.isDigit)
      rw [List.cons_append, List.takeWhile_append_dropWhile]
    · exact ⟨[], rfl⟩
  next => exact ⟨[], rfl⟩

theorem expPart_suffix (r : List Char) : ∃ m, r = m ++ (expPart r).2 := by
  cases r with
  | nil => exact ⟨[], rfl⟩
  | cons c t =>
    unfold expPart
    dsimp only
    by_cases h1 : c = 'e' ∨ c = 'E'
    · rw [if_pos h1]
      cases t with
      | nil => exact ⟨[], rfl⟩
      | cons s t2 =>
        dsimp only
        by_cases hs1 : s = '-'
        · rw [if_pos hs1]
          by_cases hd : t2.takeWhile (fun d => d.isDigit) = []
          · rw [if_pos hd]
            exact ⟨[], rfl⟩
          · rw [if_neg hd]
            refine ⟨c :: s :: t2.takeWhile (fun d => d.isDigit), ?_⟩
            show c :: s :: t2 = (c :: s :: t2.takeWhile (fun d => d.isDigit))
              ++ t2.dropWhile (fun d => d.isDigit)
            rw [List.cons_append, List.cons_append, List.takeWhile_append_dropWhile]
        · rw [if_neg hs1]
          by_cases hs2 : s = '+'
          · rw [if_pos hs2]
            by_cases hd : t2.takeWhile (fun d => d.isDigit) = []
            · rw [if_pos hd]
              exact ⟨[], rfl⟩
            · rw [if_neg hd]
              refine ⟨c :: s :: t2.takeWhile (fun d => d.isDigit), ?_⟩
              show c :: s :: t2 = (c :: s :: t2.takeWhile (fun d => d.isDigit))
                ++ t2.dropWhile (fun d => d.isDigit)
              rw [List.cons_append, List.cons_append, List.takeWhile_append_dropWhile]
          · rw [if_neg hs2]
            by_cases hd : (s :: t2).takeWhile (fun d => d.isDigit) = []
            · rw [if_pos hd]
              exact ⟨[], rfl⟩
            · rw [if_neg hd]
              refine ⟨c :: (s :: t2).takeWhile (fun d => d.isDigit), ?_⟩
              show c :: s :: t2 = (c :: (s :: t2).takeWhile (fun d => d.isDigit))
                ++ (s :: t2).dropWhile (fun d => d.isDigit)
              rw [List.cons_append, List.takeWhile_append_dropWhile]
    · rw [if_neg h1]
      exact ⟨[], rfl⟩

theorem intPart_suffix {l1 : List Char} {p : List Char × List Char}
    (h : intPart l1 = some p) : ∃ m, m ≠ [] ∧ l1 = m ++ p.2 := by
  cases l1 with
  | nil => exact absurd h (by simp [intPart])
  | cons c t =>
    unfold intPart at h
    dsimp only at h
    split_ifs at h with h0 hd
    · have hp := Option.some.inj h
      refine ⟨[c], by simp, ?_⟩
      rw [← hp]
      rfl
    · have hp := Option.some.inj h
      refine ⟨(c :: t).takeWhile (fun d => d.isDigit), ?_, ?_⟩
      · rw [List.takeWhile_cons, hd]
        simp
      · rw [← hp, List.takeWhile_append_dropWhile]

theorem numFrom_suffix {neg : Bool} {l1 : List Char} {p : JVal × List Char}
    (h : numFrom neg l1 = some p) : ∃ m, m ≠ [] ∧ l1 = m ++ p.2 := by
  unfold numFrom at h
  cases hi : intPart l1 with
  | none => rw [hi] at h; exact absurd h (by simp)
  | some q =>
    obtain ⟨ds, r1⟩ := q
    rw [hi] at h
    simp only at h
    obtain ⟨m1, hm1, hl1⟩ := intPart_suffix hi
    by_cases hc : (fracPart r1).1 = [] ∧ (expPart (fracPart r1).2).1 = none
    · rw [if_pos hc] at h
      have hp := Option.some.inj h
      refine ⟨m1, hm1, ?_⟩
      rw [hl1, ← hp]

    · rw [if_neg hc] at h
      have hp := Option.some.inj h
      obtain ⟨m2, hm2⟩ := fracPart_suffix r1
      obtain ⟨m3, hm3⟩ := expPart_suffix (fracPart r1).2
      refine ⟨m1 ++ (m2 ++ m3), by simp [hm1], ?_⟩
      rw [hl1, hm2, hm3, ← hp]
      simp [List.append_assoc]

theorem parseNumber_suffix {l : List Char} {p : JVal × List Char}
    (h : parseNumber l = some p) : ∃ m, m ≠ [] ∧ l = m ++ p.2 := by
  cases l with
  | nil => exact absurd h (by simp [parseNumber])
  | cons c0 t0 =>
    unfold parseNumber at h
    dsimp only at h
    by_cases hm : c0 = '-'
    · rw [if_pos hm] at h
      obtain ⟨m, hm0, hl⟩ := numFrom_suffix h
      exact ⟨c0 :: m, by simp, by rw [List.cons_append, ← hl]⟩
    · rw [if_neg hm] at h
      exact numFrom_suffix h

theorem numFrom_not_obj {neg : Bool} {l1 : List Char} {p : JVal × List Char}
    (h : numFrom neg l1 = some p) (fs : List (List Nat × JVal)) :
    p.1 ≠ JVal.jobj fs := by
  unfold numFrom at h
  cases hi : intPart l1 with
  | none => rw [hi] at h; exact absurd h (by simp)
  | some q =>
    obtain ⟨ds, r1⟩ := q
    rw [hi] at h
    simp only at h
    by_cases hc : (fracPart r1).1 = [] ∧ (expPart (fracPart r1).2).1 = none
    · rw [if_pos hc] at h
      have hp := Option.some.inj h
      rw [← hp]
      simp
    · rw [if_neg hc] at h
      have hp := Option.some.inj h
      rw [← hp]
      simp

theorem parseNumber_not_obj {l : List Char} {p : JVal × List Char}
    (h : parseNumber l = some p) (fs : List (List Nat × JVal)) :
    p.1 ≠ JVal.jobj fs := by
  cases l with
  | nil => exact absurd h (by simp [parseNumber])
  | cons c0 t0 =>
    unfold parseNumber at h
    dsimp only at h
    by_cases hm : c0 = '-'
    · rw [if_pos hm] at h
      exact numFrom_not_obj h fs
    · rw [if_neg hm] at h
      exact numFrom_not_obj h fs
theorem take_decomp {l lit : List Char} {n : Nat} (h : l.take n = lit) :
    l = lit ++ l.drop n := by
  rw [← h, List.take_append_drop]

theorem skipWs_split {t s : List Char} (hs : skipWs t = s) :
    ∃ tw, allJWs tw ∧ t = tw ++ s :=
  ⟨t.takeWhile jsonWs, (skipWs_decomp t).2, by
    rw [← hs]
    exact (skipWs_decomp t).1⟩

/-- Whatever any of the three scanners consumes is a nonempty prefix: the
rest returned is a proper suffix of the input. -/
theorem parse_suffix_all : ∀ f : Nat,
    (∀ (l : List Char) (p : JVal × List Char), parseValue f l = some p →
      ∃ m, m ≠ [] ∧ l = m ++ p.2) ∧
    (∀ (acc : List (List Nat × JVal)) (l : List Char)
      (p : List (List Nat × JVal) × List Char), parseMembers f acc l = some p →
      ∃ m, m ≠ [] ∧ l = m ++ p.2) ∧
    (∀ (acc : List JVal) (l : List Char) (p : List JVal × List Char),
      parseItemsRest f acc l = some p → ∃ m, m ≠ [] ∧ l = m ++ p.2) := by
  intro f
  induction f with
  | zero =>
    exact ⟨fun l p h => Option.noConfusion h, fun acc l p h => Option.noConfusion h,
      fun acc l p h => Option.noConfusion h⟩
  | succ f IH =>
    obtain ⟨IHv, IHm, IHi⟩ := IH
    refine ⟨?_, ?_, ?_⟩
    · intro l p h
      cases l with
      | nil => exact Option.noConfusion h
      | cons c t =>
        unfold parseValue at h
        dsimp only at h
        by_cases h1 : c = obr
        · rw [if_pos h1] at h
          cases hs : skipWs t with
          | nil => rw [hs] at h; exact Option.noConfusion h
          | cons c2 r =>
            rw [hs] at h
            dsimp only at h
            obtain ⟨tw, -, htw⟩ := skipWs_split hs
            by_cases h2 : c2 = cbr
            · rw [if_pos h2] at h
              have hp := Option.some.inj h
              refine ⟨c :: (tw ++ [c2]), by simp, ?_⟩
              rw [← hp, htw]
              simp
            · rw [if_neg h2] at h
              cases hm : parseMembers f [] (c2 :: r) with
              | none => rw [hm] at h; exact Option.noConfusion h
              | some q =>
                obtain ⟨fs0, r0⟩ := q
                rw [hm] at h
                have hp : (JVal.jobj fs0, r0) = p := by simpa using h
                obtain ⟨mM, hmM, hlM0⟩ := IHm [] (c2 :: r) (fs0, r0) hm
                have hlM : c2 :: r = mM ++ r0 := hlM0
                refine ⟨c :: (tw ++ mM), by simp, ?_⟩
                rw [← hp, htw, hlM]
                simp [List.append_assoc]
        · rw [if_neg h1] at h
          by_cases h3 : c = '['
          · rw [if_pos h3] at h
            cases hs : skipWs t with
            | nil => rw [hs] at h; exact Option.noConfusion h
            | cons c2 r =>
              rw [hs] at h
              dsimp only at h
              obtain ⟨tw, -, htw⟩ := skipWs_split hs
              by_cases h4 : c2 = ']'
              · rw [if_pos h4] at h
                have hp := Option.some.inj h
                refine ⟨c :: (tw ++ [c2]), by simp, ?_⟩
                rw [← hp, htw]
                simp
              · rw [if_neg h4] at h
                cases hv : parseValue f (c2 :: r) with
                | none => rw [hv] at h; exact Option.noConfusion h
                | some qv =>
                  obtain ⟨v, r2⟩ := qv
                  rw [hv] at h
                  dsimp only at h
                  obtain ⟨mV, hmV, hlV0⟩ := IHv (c2 :: r) (v, r2) hv
                  have hlV : c2 :: r = mV ++ r2 := hlV0
                  cases hit : parseItemsRest f [v] r2 with
                  | none => rw [hit] at h; exact Option.noConfusion h
                  | some qi =>
                    obtain ⟨xs, r3⟩ := qi
                    rw [hit] at h
                    have hp : (JVal.jarr xs, r3) = p := by simpa using h
                    obtain ⟨mI, hmI, hlI0⟩ := IHi [v] r2 (xs, r3) hit
                    have hlI : r2 = mI ++ r3 := hlI0
                    refine ⟨c :: (tw ++ (mV ++ mI)), by simp, ?_⟩
                    rw [← hp, htw, hlV, hlI]
                    simp [List.append_assoc]
          · rw [if_neg h3] at h
            by_cases h5 : c = '\"'
            · rw [if_pos h5] at h
              cases hsb : parseStrBody t with
              | none => rw [hsb] at h; exact Option.noConfusion h
              | some qs =>
                obtain ⟨cs, rS⟩ := qs
                rw [hsb] at h
                dsimp only at h
                have hp := Option.some.inj h
                obtain ⟨mS, hmS, hlS0⟩ := parseStrBody_suffix hsb
                have hlS : t = mS ++ rS := hlS0
                refine ⟨c :: mS, by simp, ?_⟩
                rw [← hp, hlS]
                simp
            · rw [if_neg h5] at h
              by_cases h6 : (c :: t).take 4 = "null".data
              · rw [if_pos h6] at h
                have hp := Option.some.inj h
                refine ⟨"null".data, by decide, ?_⟩
                rw [← hp]
                exact take_decomp h6
              · rw [if_neg h6] at h
                by_cases h7 : (c :: t).take 4 = "true".data
                · rw [if_pos h7] at h
                  have hp := Option.some.inj h
                  refine ⟨"true".data, by decide, ?_⟩
                  rw [← hp]
                  exact take_decomp h7
                · rw [if_neg h7] at h
                  by_cases h8 : (c :: t).take 5 = "false".data
                  · rw [if_pos h8] at h
                    have hp := Option.some.inj h
                    refine ⟨"false".data, by decide, ?_⟩
                    rw [← hp]
                    exact take_decomp h8
                  · rw [if_neg h8] at h
                    by_cases h9 : (c :: t).take 3 = "NaN".data
                    · rw [if_pos h9] at h
                      have hp := Option.some.inj h
                      refine ⟨"NaN".data, by decide, ?_⟩
                      rw [← hp]
                      exact take_decomp h9
                    · rw [if_neg h9] at h
                      by_cases h10 : (c :: t).take 8 = "Infinity".data
                      · rw [if_pos h10] at h
                        have hp := Option.some.inj h
                        refine ⟨"Infinity".data, by decide, ?_⟩
                        rw [← hp]
                        exact take_decomp h10
                      · rw [if_neg h10] at h
                        by_cases h11 : (c :: t).take 9 = "-Infinity".data
                        · rw [if_pos h11] at h
                          have hp := Option.some.inj h
                          refine ⟨"-Infinity".data, by decide, ?_⟩
                          rw [← hp]
                          exact take_decomp h11
                        · rw [if_neg h11] at h
                          exact parseNumber_suffix h
    · intro acc l p h
      cases l with
      | nil => exact Option.noConfusion h
      | cons c t =>
        unfold parseMembers at h
        by_cases h1 : c = '\"'
        · rw [if_pos h1] at h
          cases hsb : parseStrBody t with
          | none => rw [hsb] at h; exact Option.noConfusion h
          | some qk =>
            obtain ⟨k, r1⟩ := qk
            rw [hsb] at h
            dsimp only at h
            obtain ⟨mK, hmK, hlK0⟩ := parseStrBody_suffix hsb
            have hlK : t = mK ++ r1 := hlK0
            cases hs1 : skipWs r1 with
            | nil => rw [hs1] at h; exact Option.noConfusion h
            | cons c2 r2 =>
              rw [hs1] at h
              dsimp only at h
              obtain ⟨w1, -, hw1⟩ := skipWs_split hs1
              by_cases h2 : c2 = ':'
              · rw [if_pos h2] at h
                cases hv : parseValue f (skipWs r2) with
                | none => rw [hv] at h; exact Option.noConfusion h
                | some qv =>
                  obtain ⟨v, r3⟩ := qv
                  rw [hv] at h
                  dsimp only at h
                  obtain ⟨mV, hmV, hlV0⟩ := IHv (skipWs r2) (v, r3) hv
                  have hlV : skipWs r2 = mV ++ r3 := hlV0
                  obtain ⟨w2, -, hw2⟩ := skipWs_split (rfl : skipWs r2 = skipWs r2)
                  cases hs3 : skipWs r3 with
                  | nil => rw [hs3] at h; exact Option.noConfusion h
                  | cons c4 r4 =>
                    rw [hs3] at h
                    dsimp only at h
                    obtain ⟨w3, -, hw3⟩ := skipWs_split hs3
                    by_cases h4 : c4 = cbr
                    · rw [if_pos h4] at h
                      have hp := Option.some.inj h
                      refine ⟨c :: (mK ++ (w1 ++ (c2 :: (w2 ++ (mV ++ (w3 ++ [c4])))))),
                        by simp, ?_⟩
                      rw [← hp, hlK, hw1, hw2, hlV, hw3]
                      simp [List.append_assoc]
                    · rw [if_neg h4] at h
                      by_cases h5 : c4 = ','
                      · rw [if_pos h5] at h
                        cases hs4 : skipWs r4 with
                        | nil => rw [hs4] at h; exact Option.noConfusion h
                        | cons c5 r5 =>
                          rw [hs4] at h
                          obtain ⟨w4, -, hw4⟩ := skipWs_split hs4
                          obtain ⟨mR, hmR, hlR⟩ := IHm (insertKey acc k v) (c5 :: r5) p h
                          refine ⟨c :: (mK ++ (w1 ++ (c2 :: (w2 ++ (mV ++
                            (w3 ++ (c4 :: (w4 ++ mR)))))))), by simp, ?_⟩
                          rw [hlK, hw1, hw2, hlV, hw3, hw4, hlR]
                          simp [List.append_assoc]
                      · rw [if_neg h5] at h; exact Option.noConfusion h
              · rw [if_neg h2] at h; exact Option.noConfusion h
        · rw [if_neg h1] at h; exact Option.noConfusion h
    · intro acc l p h
      unfold parseItemsRest at h
      cases hs : skipWs l with
      | nil => rw [hs] at h; exact Option.noConfusion h
      | cons c r =>
        rw [hs] at h
        dsimp only at h
        obtain ⟨w0, -, hw0⟩ := skipWs_split hs
        by_cases h1 : c = ']'
        · rw [if_pos h1] at h
          have hp := Option.some.inj h
          refine ⟨w0 ++ [c], by simp, ?_⟩
          rw [← hp, hw0]
          simp
        · rw [if_neg h1] at h
          by_cases h2 : c = ','
          · rw [if_pos h2] at h
            cases hv : parseValue f (skipWs r) with
            | none => rw [hv] at h; exact Option.noConfusion h
            | some qv =>
              obtain ⟨v, r2⟩ := qv
              rw [hv] at h
              dsimp only at h
              obtain ⟨mV, hmV, hlV0⟩ := IHv (skipWs r) (v, r2) hv
              have hlV : skipWs r = mV ++ r2 := hlV0
              obtain ⟨w1, -, hw1⟩ := skipWs_split (rfl : skipWs r = skipWs r)
              obtain ⟨mI, hmI, hlI⟩ := IHi (acc ++ [v]) r2 p h
              refine ⟨w0 ++ (c :: (w1 ++ (mV ++ mI))), by simp, ?_⟩
              rw [hw0, hw1, hlV, hlI]
              simp [List.append_assoc]
          · rw [if_neg h2] at h; exact Option.noConfusion h

theorem parseValue_suffix {f : Nat} {l : List Char} {p : JVal × List Char}
    (h : parseValue f l = some p) : ∃ m, m ≠ [] ∧ l = m ++ p.2 :=
  (parse_suffix_all f).1 l p h

theorem parseMembers_suffix {f : Nat} {acc : List (List Nat × JVal)}
    {l : List Char} {p : List (List Nat × JVal) × List Char}
    (h : parseMembers f acc l = some p) : ∃ m, m ≠ [] ∧ l = m ++ p.2 :=
  (parse_suffix_all f).2.1 acc l p h

theorem parseItemsRest_suffix {f : Nat} {acc : List JVal} {l : List Char}
    {p : List JVal × List Char} (h : parseItemsRest f acc l = some p) :
    ∃ m, m ≠ [] ∧ l = m ++ p.2 :=
  (parse_suffix_all f).2.2 acc l p h
/-- Success is fuel-independent once the fuel exceeds the input length: the
recursion always moves to a strictly shorter list. -/
theorem parse_S_all : ∀ f : Nat,
    (∀ (l : List Char) (p : JVal × List Char), parseValue f l = some p →
      ∀ g, l.length < g → parseValue g l = some p) ∧
    (∀ (acc : List (List Nat × JVal)) (l : List Char)
      (p : List (List Nat × JVal) × List Char), parseMembers f acc l = some p →
      ∀ g, l.length < g → parseMembers g acc l = some p) ∧
    (∀ (acc : List JVal) (l : List Char) (p : List JVal × List Char),
      parseItemsRest f acc l = some p →
      ∀ g, l.length < g → parseItemsRest g acc l = some p) := by
  intro f
  induction f with
  | zero =>
    exact ⟨fun l p h => Option.noConfusion h, fun acc l p h => Option.noConfusion h,
      fun acc l p h => Option.noConfusion h⟩
  | succ f IH =>
    obtain ⟨IHv, IHm, IHi⟩ := IH
    refine ⟨?_, ?_, ?_⟩
    · intro l p h g hg
      cases l with
      | nil => exact Option.noConfusion h
      | cons c t =>
        cases g with
        | zero => exact absurd hg (by omega)
        | succ g =>
          have hg' : t.length < g := by
            simp only [List.length_cons] at hg
            omega
          unfold parseValue at h ⊢
          dsimp only at h ⊢
          by_cases h1 : c = obr
          · rw [if_pos h1] at h ⊢
            cases hs : skipWs t with
            | nil => rw [hs] at h; exact Option.noConfusion h
            | cons c2 r =>
              rw [hs] at h
              dsimp only at h ⊢
              obtain ⟨tw, -, htw⟩ := skipWs_split hs
              have hlentw : t.length = tw.length + (r.length + 1) := by
                have := congrArg List.length htw
                simpa using this
              by_cases h2 : c2 = cbr
              · rw [if_pos h2] at h ⊢
                exact h
              · rw [if_neg h2] at h ⊢
                cases hm : parseMembers f [] (c2 :: r) with
                | none => rw [hm] at h; exact Option.noConfusion h
                | some q =>
                  rw [hm] at h
                  rw [IHm [] (c2 :: r) q hm g (by simp only [List.length_cons]; omega)]
                  exact h
          · rw [if_neg h1] at h ⊢
            by_cases h3 : c = '['
            · rw [if_pos h3] at h ⊢
              cases hs : skipWs t with
              | nil => rw [hs] at h; exact Option.noConfusion h
              | cons c2 r =>
                rw [hs] at h
                dsimp only at h ⊢
                obtain ⟨tw, -, htw⟩ := skipWs_split hs
                have hlentw : t.length = tw.length + (r.length + 1) := by
                  have := congrArg List.length htw
                  simpa using this
                by_cases h4 : c2 = ']'
                · rw [if_pos h4] at h ⊢
                  exact h
                · rw [if_neg h4] at h ⊢
                  cases hv : parseValue f (c2 :: r) with
                  | none => rw [hv] at h; exact Option.noConfusion h
                  | some qv =>
                    obtain ⟨v, r2⟩ := qv
                    rw [hv] at h
                    rw [IHv (c2 :: r) (v, r2) hv g
                      (by simp only [List.length_cons]; omega)]
                    dsimp only at h ⊢
                    obtain ⟨mV, hmV, hlV0⟩ := parseValue_suffix hv
                    have hlV : c2 :: r = mV ++ r2 := hlV0
                    have hmVlen : 0 < mV.length := List.length_pos.mpr hmV
                    have hlenV : r.length + 1 = mV.length + r2.length := by
                      have := congrArg List.length hlV
                      simpa using this
                    cases hit : parseItemsRest f [v] r2 with
                    | none => rw [hit] at h; exact Option.noConfusion h
                    | some qi =>
                      rw [hit] at h
                      rw [IHi [v] r2 qi hit g (by omega)]
                      exact h
            · rw [if_neg h3] at h ⊢
              exact h
    · intro acc l p h g hg
      cases l with
      | nil => exact Option.noConfusion h
      | cons c t =>
        cases g with
        | zero => exact absurd hg (by omega)
        | succ g =>
          have hg' : t.length < g := by
            simp only [List.length_cons] at hg
            omega
          unfold parseMembers at h ⊢
          by_cases h1 : c = '\"'
          · rw [if_pos h1] at h ⊢
            cases hsb : parseStrBody t with
            | none => rw [hsb] at h; exact Option.noConfusion h
            | some qk =>
              obtain ⟨k, r1⟩ := qk
              rw [hsb] at h
              dsimp only at h ⊢
              obtain ⟨mK, hmK, hlK0⟩ := parseStrBody_suffix hsb
              have hlK : t = mK ++ r1 := hlK0
              have hmKlen : 0 < mK.length := List.length_pos.mpr hmK
              have hlenK : t.length = mK.length + r1.length := by
                have := congrArg List.length hlK
                simpa using this
              cases hs1 : skipWs r1 with
              | nil => rw [hs1] at h; exact Option.noConfusion h
              | cons c2 r2 =>
                rw [hs1] at h
                dsimp only at h ⊢
                obtain ⟨w1, -, hw1⟩ := skipWs_split hs1
                have hlen1 : r1.length = w1.length + (r2.length + 1) := by
                  have := congrArg List.length hw1
                  simpa using this
                by_cases h2 : c2 = ':'
                · rw [if_pos h2] at h ⊢
                  have hlen2 : (skipWs r2).length ≤ r2.length := by
                    obtain ⟨w2, -, hw2⟩ := skipWs_split (rfl : skipWs r2 = skipWs r2)
                    have := congrArg List.length hw2
                    simp at this
                    omega
                  cases hv : parseValue f (skipWs r2) with
                  | none => rw [hv] at h; exact Option.noConfusion h
                  | some qv =>
                    obtain ⟨v, r3⟩ := qv
                    rw [hv] at h
                    rw [IHv (skipWs r2) (v, r3) hv g (by omega)]
                    dsimp only at h ⊢
                    obtain ⟨mV, hmV, hlV0⟩ := parseValue_suffix hv
                    have hlV : skipWs r2 = mV ++ r3 := hlV0
                    have hmVlen : 0 < mV.length := List.length_pos.mpr hmV
                    have hlenV : (skipWs r2).length = mV.length + r3.length := by
                      have := congrArg List.length hlV
                      simpa using this
                    cases hs3 : skipWs r3 with
                    | nil => rw [hs3] at h; exact Option.noConfusion h
                    | cons c4 r4 =>
                      rw [hs3] at h
                      dsimp only at h ⊢
                      obtain ⟨w3, -, hw3⟩ := skipWs_split hs3
                      have hlen3 : r3.length = w3.length + (r4.length + 1) := by
                        have := congrArg List.length hw3
                        simpa using this
                      by_cases h4 : c4 = cbr
                      · rw [if_pos h4] at h ⊢
                        exact h
                      · rw [if_neg h4] at h ⊢
                        by_cases h5 : c4 = ','
                        · rw [if_pos h5] at h ⊢
                          cases hs4 : skipWs r4 with
                          | nil => rw [hs4] at h; exact Option.noConfusion h
                          | cons c5 r5 =>
                            rw [hs4] at h
                            dsimp only at h ⊢
                            obtain ⟨w4, -, hw4⟩ := skipWs_split hs4
                            have hlen4 : r4.length = w4.length + (r5.length + 1) := by
                              have := congrArg List.length hw4
                              simpa using this
                            exact IHm (insertKey acc k v) (c5 :: r5) p h g
                              (by simp only [List.length_cons]; omega)
                        · rw [if_neg h5] at h; exact Option.noConfusion h
                · rw [if_neg h2] at h; exact Option.noConfusion h
          · rw [if_neg h1] at h; exact Option.noConfusion h
    · intro acc l p h g hg
      cases g with
      | zero => exact absurd hg (by omega)
      | succ g =>
        unfold parseItemsRest at h ⊢
        cases hs : skipWs l with
        | nil => rw [hs] at h; exact Option.noConfusion h
        | cons c r =>
          rw [hs] at h
          dsimp only at h ⊢
          obtain ⟨w0, -, hw0⟩ := skipWs_split hs
          have hlen0 : l.length = w0.length + (r.length + 1) := by
            have := congrArg List.length hw0
            simpa using this
          by_cases h1 : c = ']'
          · rw [if_pos h1] at h ⊢
            exact h
          · rw [if_neg h1] at h ⊢
            by_cases h2 : c = ','
            · rw [if_pos h2] at h ⊢
              have hlen1 : (skipWs r).length ≤ r.length := by
                obtain ⟨w1, -, hw1⟩ := skipWs_split (rfl : skipWs r = skipWs r)
                have := congrArg List.length hw1
                simp at this
                omega
              cases hv : parseValue f (skipWs r) with
              | none => rw [hv] at h; exact Option.noConfusion h
              | some qv =>
                obtain ⟨v, r2⟩ := qv
                rw [hv] at h
                rw [IHv (skipWs r) (v, r2) hv g (by omega)]
                dsimp only at h ⊢
                obtain ⟨mV, hmV, hlV0⟩ := parseValue_suffix hv
                have hlV : skipWs r = mV ++ r2 := hlV0
                have hmVlen : 0 < mV.length := List.length_pos.mpr hmV
                have hlenV : (skipWs r).length = mV.length + r2.length := by
                  have := congrArg List.length hlV
                  simpa using this
                exact IHi (acc ++ [v]) r2 p h g (by omega)
            · rw [if_neg h2] at h; exact Option.noConfusion h

theorem parseValue_S {f : Nat} {l : List Char} {p : JVal × List Char}
    (h : parseValue f l = some p) {g : Nat} (hg : l.length < g) :
    parseValue g l = some p :=
  (parse_S_all f).1 l p h g hg
theorem takeWhile_digit_append {w : List Char} (hw : allJWs w) :
    ∀ x : List Char, (x ++ w).takeWhile (fun d => d.isDigit)
      = x.takeWhile (fun d => d.isDigit)
  | [] => by
    cases w with
    | nil => rfl
    | cons c w' =>
      have hd : c.isDigit = false :=
        (jws_ne_all (hw c (List.mem_cons_self c w'))).2.2.2.2.2.2.2.2.2.2
      simp [List.takeWhile_cons, hd]
  | c :: x' => by
    by_cases hd : c.isDigit = true
    · simp [List.takeWhile_cons, hd, takeWhile_digit_append hw x']
    · simp [List.takeWhile_cons, hd]

theorem dropWhile_digit_append {w : List Char} (hw : allJWs w) :
    ∀ x : List Char, (x ++ w).dropWhile (fun d => d.isDigit)
      = x.dropWhile (fun d => d.isDigit) ++ w
  | [] => by
    cases w with
    | nil => rfl
    | cons c w' =>
      have hd : c.isDigit = false :=
        (jws_ne_all (hw c (List.mem_cons_self c w'))).2.2.2.2.2.2.2.2.2.2
      simp [List.dropWhile_cons, hd]
  | c :: x' => by
    by_cases hd : c.isDigit = true
    · simp [List.dropWhile_cons, hd, dropWhile_digit_append hw x']
    · simp [List.dropWhile_cons, hd]

theorem fracPart_gen {w : List Char} (hw : allJWs w) (x : List Char) :
    fracPart (x ++ w) = ((fracPart x).1, (fracPart x).2 ++ w) := by
  cases x with
  | nil =>
    simp only [List.nil_append]
    cases w with
    | nil => rfl
    | cons c w' =>
      have hdot : c ≠ '.' :=
        (jws_ne_all (hw c (List.mem_cons_self c w'))).2.2.2.2.2.1
      unfold fracPart
      dsimp only
      rw [if_neg hdot]
      rfl
  | cons c t =>
    rw [List.cons_append]
    unfold fracPart
    dsimp only
    rw [takeWhile_digit_append hw t, dropWhile_digit_append hw t]
    by_cases hdot : c = '.'
    · rw [if_pos hdot, if_pos hdot]
      by_cases hz : t.takeWhile (fun d => d.isDigit) = []
      · rw [if_pos hz, if_pos hz]
        rfl
      · rw [if_neg hz, if_neg hz]
    · rw [if_neg hdot, if_neg hdot]
      rfl

theorem expPart_gen {w : List Char} (hw : allJWs w) (x : List Char) :
    expPart (x ++ w) = ((expPart x).1, (expPart x).2 ++ w) := by
  cases x with
  | nil =>
    simp only [List.nil_append]
    cases w with
    | nil => rfl
    | cons c w' =>
      have hc := hw c (List.mem_cons_self c w')
      have he : ¬(c = 'e' ∨ c = 'E') := by
        have h1 := (jws_ne_all hc).2.2.2.2.2.2.1
        have h2 := (jws_ne_all hc).2.2.2.2.2.2.2.1
        tauto
      unfold expPart
      dsimp only
      rw [if_neg he]
      rfl
  | cons c t =>
    rw [List.cons_append]
    unfold expPart
    dsimp only
    by_cases he : c = 'e' ∨ c = 'E'
    · rw [if_pos he, if_pos he]
      cases t with
      | nil =>
        simp only [List.nil_append]
        cases w with
        | nil => rfl
        | cons s w2 =>
          have hs := hw s (List.mem_cons_self s w2)
          dsimp only
          have hsm : s ≠ '-' := (jws_ne_all hs).2.2.2.2.1
          have hsp : s ≠ '+' := (jws_ne_all hs).2.2.2.2.2.2.2.2.1
          rw [if_neg hsm, if_neg hsp]
          have hz : (s :: w2).takeWhile (fun d => d.isDigit) = [] := by
            simp [List.takeWhile_cons, (jws_ne_all hs).2.2.2.2.2.2.2.2.2.2]
          rw [if_pos hz]
          rfl
      | cons s t2 =>
        simp only [List.cons_append]
        have h1 : (s :: (t2 ++ w)).takeWhile (fun d => d.isDigit)
            = (s :: t2).takeWhile (fun d => d.isDigit) := by
          rw [← List.cons_append]
          exact takeWhile_digit_append hw (s :: t2)
        have h2 : (s :: (t2 ++ w)).dropWhile (fun d => d.isDigit)
            = (s :: t2).dropWhile (fun d => d.isDigit) ++ w := by
          rw [← List.cons_append]
          exact dropWhile_digit_append hw (s :: t2)
        rw [takeWhile_digit_append hw t2, dropWhile_digit_append hw t2, h1, h2]
        by_cases hsm : s = '-'
        · rw [if_pos hsm, if_pos hsm]
          by_cases hz : t2.takeWhile (fun d => d.isDigit) = []
          · rw [if_pos hz, if_pos hz]
            rfl
          · rw [if_neg hz, if_neg hz]
        · rw [if_neg hsm, if_neg hsm]
          by_cases hsp : s = '+'
          · rw [if_pos hsp, if_pos hsp]
            by_cases hz : t2.takeWhile (fun d => d.isDigit) = []
            · rw [if_pos hz, if_pos hz]
              rfl
            · rw [if_neg hz, if_neg hz]
          · rw [if_neg hsp, if_neg hsp]
            by_cases hz : (s :: t2).takeWhile (fun d => d.isDigit) = []
            · rw [if_pos hz, if_pos hz]
              rfl
            · rw [if_neg hz, if_neg hz]
    · rw [if_neg he, if_neg he]
      rfl

theorem intPart_gen {w : List Char} (hw : allJWs w) (x : List Char) :
    intPart (x ++ w) = (intPart x).map (fun p => (p.1, p.2 ++ w)) := by
  cases x with
  | nil =>
    simp only [List.nil_append]
    cases w with
    | nil => rfl
    | cons c w' =>
      have hc := hw c (List.mem_cons_self c w')
      have hd : c.isDigit = false := (jws_ne_all hc).2.2.2.2.2.2.2.2.2.2
      have h0 : c ≠ '0' := by
        intro h
        subst h
        exact absurd hd (by decide)
      unfold intPart
      dsimp only
      rw [if_neg h0, if_neg (by simp [hd])]
      rfl
  | cons c t =>
    rw [List.cons_append]
    unfold intPart
    dsimp only
    by_cases h0 : c = '0'
    · rw [if_pos h0, if_pos h0]
      rfl
    · rw [if_neg h0, if_neg h0]
      by_cases hd : c.isDigit = true
      · rw [if_pos hd, if_pos hd]
        have h1 : (c :: (t ++ w)).takeWhile (fun d => d.isDigit)
            = (c :: t).takeWhile (fun d => d.isDigit) := by
          rw [← List.cons_append]
          exact takeWhile_digit_append hw (c :: t)
        have h2 : (c :: (t ++ w)).dropWhile (fun d => d.isDigit)
            = (c :: t).dropWhile (fun d => d.isDigit) ++ w := by
          rw [← List.cons_append]
          exact dropWhile_digit_append hw (c :: t)
        rw [h1, h2]
        rfl
      · rw [if_neg hd, if_neg hd]
        rfl

theorem numFrom_gen {w : List Char} (hw : allJWs w) (neg : Bool) (x : List Char) :
    numFrom neg (x ++ w) = (numFrom neg x).map (fun p => (p.1, p.2 ++ w)) := by
  unfold numFrom
  rw [intPart_gen hw x]
  cases hi : intPart x with
  | none => rfl
  | some q =>
    obtain ⟨ds, r1⟩ := q
    dsimp only [Option.map]
    rw [fracPart_gen hw r1]
    dsimp only
    rw [expPart_gen hw (fracPart r1).2]
    dsimp only
    by_cases hc : (fracPart r1).1 = [] ∧ (expPart (fracPart r1).2).1 = none
    · rw [if_pos hc, if_pos hc]
    · rw [if_neg hc, if_neg hc]

theorem parseNumber_gen {w : List Char} (hw : allJWs w) (x : List Char) :
    parseNumber (x ++ w) = (parseNumber x).map (fun p => (p.1, p.2 ++ w)) := by
  cases x with
  | nil =>
    simp only [List.nil_append]
    cases w with
    | nil => rfl
    | cons c w' =>
      rw [parseNumber_ws_none (hw c (List.mem_cons_self c w'))]
      rfl
  | cons c t =>
    rw [List.cons_append]
    unfold parseNumber
    dsimp only
    by_cases hm : c = '-'
    · rw [if_pos hm, if_pos hm]
      exact numFrom_gen hw true t
    · rw [if_neg hm, if_neg hm]
      have h := numFrom_gen hw false (c :: t)
      rw [List.cons_append] at h
      exact h
theorem hexVal_ws {c : Char} (hc : jsonWs c = true) : hexVal c = none := by
  rcases jsonWs_cases hc with rfl | rfl | rfl | rfl <;> rfl

theorem hex4_ws {g1 g2 g3 g4 : Char}
    (h : jsonWs g1 = true ∨ jsonWs g2 = true ∨ jsonWs g3 = true ∨ jsonWs g4 = true) :
    hex4 g1 g2 g3 g4 = none := by
  unfold hex4
  cases e1 : hexVal g1 with
  | none => rfl
  | some a =>
    cases e2 : hexVal g2 with
    | none => rfl
    | some b =>
      cases e3 : hexVal g3 with
      | none => rfl
      | some c =>
        cases e4 : hexVal g4 with
        | none => rfl
        | some d =>
          rcases h with h | h | h | h
          · rw [hexVal_ws h] at e1; exact Option.noConfusion e1
          · rw [hexVal_ws h] at e2; exact Option.noConfusion e2
          · rw [hexVal_ws h] at e3; exact Option.noConfusion e3
          · rw [hexVal_ws h] at e4; exact Option.noConfusion e4

theorem take_lit_gen {w : List Char} (hw : allJWs w) :
    ∀ (lit x : List Char), (∀ c ∈ lit, jsonWs c = false) →
      (((x ++ w).take lit.length = lit) ↔ (x.take lit.length = lit))
  | [], x, _ => by simp
  | a :: lit', [], hlit => by
    constructor
    · intro h
      exfalso
      cases w with
      | nil => simp at h
      | cons b w' =>
        rw [List.nil_append, List.length_cons, List.take_succ_cons] at h
        have hb : b = a := (List.cons.inj h).1
        have hbw := hw b (List.mem_cons_self b w')
        rw [hb, hlit a (List.mem_cons_self a lit')] at hbw
        exact Bool.noConfusion hbw
    · intro h
      exfalso
      simp at h
  | a :: lit', d :: x', hlit => by
    rw [List.cons_append, List.length_cons, List.take_succ_cons, List.take_succ_cons]
    constructor
    · intro h
      have hd := (List.cons.inj h).1
      have ht := (take_lit_gen hw lit' x'
        (fun c hc => hlit c (List.mem_cons_of_mem a hc))).mp (List.cons.inj h).2
      rw [hd, ht]
    · intro h
      have hd := (List.cons.inj h).1
      have ht := (take_lit_gen hw lit' x'
        (fun c hc => hlit c (List.mem_cons_of_mem a hc))).mpr (List.cons.inj h).2
      rw [hd, ht]

theorem take_lit_len {x lit : List Char} {n : Nat} (h : x.take n = lit)
    (hn : lit.length = n) : n ≤ x.length := by
  have hl := congrArg List.length h
  rw [List.length_take] at hl
  omega

theorem surrPair_gen {w : List Char} (hw : allJWs w) (code : Nat) (t : List Char) :
    surrPair code (t ++ w) = (surrPair code t).map (fun p => (p.1, p.2 ++ w)) := by
  unfold surrPair
  have hcond : ((t ++ w).take 2 = ['\\', 'u']) ↔ (t.take 2 = ['\\', 'u']) := by
    simpa using take_lit_gen hw ['\\', 'u'] t (by decide)
  by_cases hc : t.take 2 = ['\\', 'u']
  · rw [if_pos hc, if_pos (hcond.mpr hc)]
    have hdrop : (t ++ w).drop 2 = t.drop 2 ++ w :=
      List.drop_append_of_le_length (take_lit_len hc (by decide))
    rw [hdrop]
    cases hd : t.drop 2 with
    | nil =>
      simp only [List.nil_append]
      cases w with
      | nil => rfl
      | cons c0 w0 =>
        cases w0 with
        | nil => rfl
        | cons c1 w1 =>
          cases w1 with
          | nil => rfl
          | cons c2 w2 =>
            cases w2 with
            | nil => rfl
            | cons c3 w3 =>
              dsimp only
              rw [hex4_ws (Or.inl (hw c0 (by simp)))]
              rfl
    | cons g1 t1 =>
      cases t1 with
      | nil =>
        simp only [List.cons_append, List.nil_append]
        cases w with
        | nil => rfl
        | cons c0 w0 =>
          cases w0 with
          | nil => rfl
          | cons c1 w1 =>
            cases w1 with
            | nil => rfl
            | cons c2 w2 =>
              dsimp only
              rw [hex4_ws (Or.inr (Or.inl (hw c0 (by simp))))]
              rfl
      | cons g2 t2 =>
        cases t2 with
        | nil =>
          simp only [List.cons_append, List.nil_append]
          cases w with
          | nil => rfl
          | cons c0 w0 =>
            cases w0 with
            | nil => rfl
            | cons c1 w1 =>
              dsimp only
              rw [hex4_ws (Or.inr (Or.inr (Or.inl (hw c0 (by simp)))))]
              rfl
        | cons g3 t3 =>
          cases t3 with
          | nil =>
            simp only [List.cons_append, List.nil_append]
            cases w with
            | nil => rfl
            | cons c0 w0 =>
              dsimp only
              rw [hex4_ws (Or.inr (Or.inr (Or.inr (hw c0 (by simp)))))]
              rfl
          | cons g4 t4 =>
            simp only [List.cons_append]
            cases hx : hex4 g1 g2 g3 g4 with
            | none => rfl
            | some code2 =>
              dsimp only
              by_cases hlo : 0xDC00 ≤ code2 ∧ code2 ≤ 0xDFFF
              · rw [if_pos hlo, if_pos hlo]
                rfl
              · rw [if_neg hlo, if_neg hlo]
                rfl
  · rw [if_neg hc, if_neg (fun hh => hc (hcond.mp hh))]
    rfl
theorem hexEsc_gen {w : List Char} (hw : allJWs w) (t : List Char) :
    hexEsc (t ++ w) = (hexEsc t).map (fun p => (p.1, p.2 ++ w)) := by
  cases t with
  | nil =>
    simp only [List.nil_append]
    cases w with
    | nil => rfl
    | cons c0 w0 =>
      cases w0 with
      | nil => rfl
      | cons c1 w1 =>
        cases w1 with
        | nil => rfl
        | cons c2 w2 =>
          cases w2 with
          | nil => rfl
          | cons c3 w3 =>
            unfold hexEsc
            dsimp only
            rw [hex4_ws (Or.inl (hw c0 (by simp)))]
            rfl
  | cons h1 t1 =>
    cases t1 with
    | nil =>
      simp only [List.cons_append, List.nil_append]
      cases w with
      | nil => rfl
      | cons c0 w0 =>
        cases w0 with
        | nil => rfl
        | cons c1 w1 =>
          cases w1 with
          | nil => rfl
          | cons c2 w2 =>
            unfold hexEsc
            dsimp only
            rw [hex4_ws (Or.inr (Or.inl (hw c0 (by simp))))]
            rfl
    | cons h2 t2 =>
      cases t2 with
      | nil =>
        simp only [List.cons_append, List.nil_append]
        cases w with
        | nil => rfl
        | cons c0 w0 =>
          cases w0 with
          | nil => rfl
          | cons c1 w1 =>
            unfold hexEsc
            dsimp only
            rw [hex4_ws (Or.inr (Or.inr (Or.inl (hw c0 (by simp)))))]
            rfl
      | cons h3 t3 =>
        cases t3 with
        | nil =>
          simp only [List.cons_append, List.nil_append]
          cases w with
          | nil => rfl
          | cons c0 w0 =>
            unfold hexEsc
            dsimp only
            rw [hex4_ws (Or.inr (Or.inr (Or.inr (hw c0 (by simp)))))]
            rfl
        | cons h4 t4 =>
          simp only [List.cons_append]
          unfold hexEsc
          dsimp only
          cases hx : hex4 h1 h2 h3 h4 with
          | none => rfl
          | some code =>
            dsimp only
            by_cases hhi : 0xD800 ≤ code ∧ code ≤ 0xDBFF
            · rw [if_pos hhi, if_pos hhi]
              exact surrPair_gen hw code t4
            · rw [if_neg hhi, if_neg hhi]
              rfl

theorem escPart_gen {w : List Char} (hw : allJWs w) (t : List Char) :
    escPart (t ++ w) = (escPart t).map (fun p => (p.1, p.2 ++ w)) := by
  cases t with
  | nil =>
    simp only [List.nil_append]
    cases w with
    | nil => rfl
    | cons c w' =>
      have hc := hw c (List.mem_cons_self c w')
      rcases jsonWs_cases hc with rfl | rfl | rfl | rfl <;> rfl
  | cons e t' =>
    rw [List.cons_append]
    unfold escPart
    dsimp only
    by_cases h1 : e = '\"'
    · rw [if_pos h1, if_pos h1]
      rfl
    · rw [if_neg h1, if_neg h1]
      by_cases h2 : e = '\\'
      · rw [if_pos h2, if_pos h2]
        rfl
      · rw [if_neg h2, if_neg h2]
        by_cases h3 : e = '/'
        · rw [if_pos h3, if_pos h3]
          rfl
        · rw [if_neg h3, if_neg h3]
          by_cases h4 : e = 'b'
          · rw [if_pos h4, if_pos h4]
            rfl
          · rw [if_neg h4, if_neg h4]
            by_cases h5 : e = 'f'
            · rw [if_pos h5, if_pos h5]
              rfl
            · rw [if_neg h5, if_neg h5]
              by_cases h6 : e = 'n'
              · rw [if_pos h6, if_pos h6]
                rfl
              · rw [if_neg h6, if_neg h6]
                by_cases h7 : e = 'r'
                · rw [if_pos h7, if_pos h7]
                  rfl
                · rw [if_neg h7, if_neg h7]
                  by_cases h8 : e = 't'
                  · rw [if_pos h8, if_pos h8]
                    rfl
                  · rw [if_neg h8, if_neg h8]
                    by_cases h9 : e = 'u'
                    · rw [if_pos h9, if_pos h9]
                      exact hexEsc_gen hw t'
                    · rw [if_neg h9, if_neg h9]
                      rfl

theorem strBody_ws_none : ∀ (f : Nat) {w : List Char}, allJWs w → strBody f w = none
  | 0, _, _ => rfl
  | _ + 1, [], _ => rfl
  | f + 1, c :: t, hw => by
    have hc := hw c (List.mem_cons_self c t)
    have ht : allJWs t := fun d hd => hw d (List.mem_cons_of_mem c hd)
    rcases jsonWs_cases hc with rfl | rfl | rfl | rfl
    · show mapCons 32 (strBody f t) = none
      rw [strBody_ws_none f ht]
      rfl
    · rfl
    · rfl
    · rfl

theorem strBody_gen {w : List Char} (hw : allJWs w) :
    ∀ (f : Nat) (t : List Char),
      strBody f (t ++ w) = (strBody f t).map (fun p => (p.1, p.2 ++ w))
  | 0, _ => rfl
  | f + 1, [] => by
    simp only [List.nil_append]
    rw [strBody_ws_none (f + 1) hw]
    rfl
  | f + 1, c :: t' => by
    rw [List.cons_append]
    unfold strBody
    by_cases h1 : c = '\"'
    · rw [if_pos h1, if_pos h1]
      rfl
    · rw [if_neg h1, if_neg h1]
      by_cases h2 : c = '\\'
      · rw [if_pos h2, if_pos h2]
        rw [escPart_gen hw t']
        cases he : escPart t' with
        | none => rfl
        | some q =>
          obtain ⟨n, t2⟩ := q
          dsimp only [Option.map]
          rw [strBody_gen hw f t2]
          unfold mapCons
          cases hb : strBody f t2 with
          | none => rfl
          | some qb => rfl
      · rw [if_neg h2, if_neg h2]
        by_cases h3 : c.toNat < 32
        · rw [if_pos h3, if_pos h3]
          rfl
        · rw [if_neg h3, if_neg h3]
          rw [strBody_gen hw f t']
          unfold mapCons
          cases hb : strBody f t' with
          | none => rfl
          | some qb => rfl
theorem strBody_fuel (f : Nat) : ∀ (t : List Char), t.length < f →
    strBody f t = strBody (t.length + 1) t := by
  induction f using Nat.strong_induction_on with
  | _ f IH =>
    intro t ht
    cases f with
    | zero => exact absurd ht (by omega)
    | succ f' =>
      cases t with
      | nil => rfl
      | cons c t' =>
        have ht' : t'.length < f' := by
          simp only [List.length_cons] at ht
          omega
        rw [show (c :: t').length = t'.length + 1 from by simp]
        unfold strBody
        by_cases h1 : c = '\"'
        · rw [if_pos h1, if_pos h1]
        · rw [if_neg h1, if_neg h1]
          by_cases h2 : c = '\\'
          · rw [if_pos h2, if_pos h2]
            cases he : escPart t' with
            | none => rfl
            | some q =>
              obtain ⟨n, t2⟩ := q
              dsimp only
              obtain ⟨m, hm, hlm⟩ := escPart_suffix he
              have hlen : t'.length = m.length + t2.length := by
                have := congrArg List.length hlm
                simpa using this
              have hmpos : 0 < m.length := List.length_pos.mpr hm
              rw [IH f' (by omega) t2 (by omega),
                  IH (t'.length + 1) (by omega) t2 (by omega)]
          · rw [if_neg h2, if_neg h2]
            by_cases h3 : c.toNat < 32
            · rw [if_pos h3, if_pos h3]
            · rw [if_neg h3, if_neg h3]
              rw [IH f' (by omega) t' (by omega),
                  IH (t'.length + 1) (by omega) t' (by omega)]

theorem parseStrBody_gen {w : List Char} (hw : allJWs w) (t : List Char) :
    parseStrBody (t ++ w) = (parseStrBody t).map (fun p => (p.1, p.2 ++ w)) := by
  unfold parseStrBody
  rw [strBody_gen hw ((t ++ w).length + 1) t]
  rw [strBody_fuel ((t ++ w).length + 1) t (by rw [List.length_append]; omega)]
theorem lit_cond_gen {w : List Char} (hw : allJWs w) (c : Char) (t lit : List Char)
    (n : Nat) (hn : lit.length = n) (hlit : ∀ d ∈ lit, jsonWs d = false) :
    ((c :: (t ++ w)).take n = lit) ↔ ((c :: t).take n = lit) := by
  subst hn
  rw [← List.cons_append]
  exact take_lit_gen hw lit (c :: t) hlit

theorem lit_drop_gen (c : Char) (t w : List Char) {lit : List Char} {n : Nat}
    (h : (c :: t).take n = lit) (hn : lit.length = n) :
    (c :: (t ++ w)).drop n = (c :: t).drop n ++ w := by
  rw [← List.cons_append]
  exact List.drop_append_of_le_length (take_lit_len h hn)

/-- Appending trailing JSON whitespace to the input changes none of the three
scanners' decisions: the same value is produced and the whitespace reappears
untouched at the end of the rest. -/
theorem parse_gen_all {w : List Char} (hw : allJWs w) : ∀ f : Nat,
    (∀ x : List Char, parseValue f (x ++ w)
        = (parseValue f x).map (fun p => (p.1, p.2 ++ w))) ∧
    (∀ (acc : List (List Nat × JVal)) (x : List Char), parseMembers f acc (x ++ w)
        = (parseMembers f acc x).map (fun p => (p.1, p.2 ++ w))) ∧
    (∀ (acc : List JVal) (x : List Char), parseItemsRest f acc (x ++ w)
        = (parseItemsRest f acc x).map (fun p => (p.1, p.2 ++ w))) := by
  intro f
  induction f with
  | zero => exact ⟨fun x => rfl, fun acc x => rfl, fun acc x => rfl⟩
  | succ f IH =>
    obtain ⟨IHv, IHm, IHi⟩ := IH
    refine ⟨?_, ?_, ?_⟩
    · intro x
      cases x with
      | nil =>
        simp only [List.nil_append]
        rw [parseValue_ws_none hw (f + 1)]
        rfl
      | cons c t =>
        rw [List.cons_append]
        unfold parseValue
        dsimp only
        by_cases h1 : c = obr
        · rw [if_pos h1, if_pos h1]
          cases hs : skipWs t with
          | nil =>
            rw [skipWs_append_nil hw hs]
            rfl
          | cons c2 r =>
            rw [skipWs_append_cons hs]
            dsimp only
            by_cases h2 : c2 = cbr
            · rw [if_pos h2, if_pos h2]
              rfl
            · rw [if_neg h2, if_neg h2]
              rw [show c2 :: (r ++ w) = (c2 :: r) ++ w from rfl]
              rw [IHm [] (c2 :: r)]
              cases hm : parseMembers f [] (c2 :: r) with
              | none => rfl
              | some q => rfl
        · rw [if_neg h1, if_neg h1]
          by_cases h3 : c = '['
          · rw [if_pos h3, if_pos h3]
            cases hs : skipWs t with
            | nil =>
              rw [skipWs_append_nil hw hs]
              rfl
            | cons c2 r =>
              rw [skipWs_append_cons hs]
              dsimp only
              by_cases h4 : c2 = ']'
              · rw [if_pos h4, if_pos h4]
                rfl
              · rw [if_neg h4, if_neg h4]
                rw [show c2 :: (r ++ w) = (c2 :: r) ++ w from rfl]
                rw [IHv (c2 :: r)]
                cases hv : parseValue f (c2 :: r) with
                | none => rfl
                | some qv =>
                  obtain ⟨v, r2⟩ := qv
                  dsimp only [Option.map]
                  rw [IHi [v] r2]
                  cases hit : parseItemsRest f [v] r2 with
                  | none => rfl
                  | some qi => rfl
          · rw [if_neg h3, if_neg h3]
            by_cases h5 : c = '\"'
            · rw [if_pos h5, if_pos h5]
              rw [parseStrBody_gen hw t]
              cases hsb : parseStrBody t with
              | none => rfl
              | some qs =>
                obtain ⟨cs, rS⟩ := qs
                rfl
            · rw [if_neg h5, if_neg h5]
              by_cases h6 : (c :: t).take 4 = "null".data
              · rw [if_pos ((lit_cond_gen hw c t "null".data 4 rfl (by decide)).mpr h6),
                  if_pos h6, lit_drop_gen c t w h6 rfl]
                rfl
              · rw [if_neg (fun hh =>
                    h6 ((lit_cond_gen hw c t "null".data 4 rfl (by decide)).mp hh)),
                  if_neg h6]
                by_cases h7 : (c :: t).take 4 = "true".data
                · rw [if_pos ((lit_cond_gen hw c t "true".data 4 rfl (by decide)).mpr h7),
                    if_pos h7, lit_drop_gen c t w h7 rfl]
                  rfl
                · rw [if_neg (fun hh =>
                      h7 ((lit_cond_gen hw c t "true".data 4 rfl (by decide)).mp hh)),
                    if_neg h7]
                  by_cases h8 : (c :: t).take 5 = "false".data
                  · rw [if_pos ((lit_cond_gen hw c t "false".data 5 rfl
                        (by decide)).mpr h8),
                      if_pos h8, lit_drop_gen c t w h8 rfl]
                    rfl
                  · rw [if_neg (fun hh =>
                        h8 ((lit_cond_gen hw c t "false".data 5 rfl (by decide)).mp hh)),
                      if_neg h8]
                    by_cases h9 : (c :: t).take 3 = "NaN".data
                    · rw [if_pos ((lit_cond_gen hw c t "NaN".data 3 rfl
                          (by decide)).mpr h9),
                        if_pos h9, lit_drop_gen c t w h9 rfl]
                      rfl
                    · rw [if_neg (fun hh =>
                          h9 ((lit_cond_gen hw c t "NaN".data 3 rfl (by decide)).mp hh)),
                        if_neg h9]
                      by_cases h10 : (c :: t).take 8 = "Infinity".data
                      · rw [if_pos ((lit_cond_gen hw c t "Infinity".data 8 rfl
                            (by decide)).mpr h10),
                          if_pos h10, lit_drop_gen c t w h10 rfl]
                        rfl
                      · rw [if_neg (fun hh =>
                            h10 ((lit_cond_gen hw c t "Infinity".data 8 rfl
                              (by decide)).mp hh)),
                          if_neg h10]
                        by_cases h11 : (c :: t).take 9 = "-Infinity".data
                        · rw [if_pos ((lit_cond_gen hw c t "-Infinity".data 9 rfl
                              (by decide)).mpr h11),
                            if_pos h11, lit_drop_gen c t w h11 rfl]
                          rfl
                        · rw [if_neg (fun hh =>
                              h11 ((lit_cond_gen hw c t "-Infinity".data 9 rfl
                                (by decide)).mp hh)),
                            if_neg h11]
                          rw [show c :: (t ++ w) = (c :: t) ++ w from rfl]
                          exact parseNumber_gen hw (c :: t)
    · intro acc x
      cases x with
      | nil =>
        simp only [List.nil_append]
        rw [parseMembers_ws_none hw (f + 1) acc]
        rfl
      | cons c t =>
        rw [List.cons_append]
        unfold parseMembers
        by_cases h1 : c = '\"'
        · rw [if_pos h1, if_pos h1]
          rw [parseStrBody_gen hw t]
          cases hsb : parseStrBody t with
          | none => rfl
          | some qk =>
            obtain ⟨k, r1⟩ := qk
            dsimp only [Option.map]
            cases hs1 : skipWs r1 with
            | nil =>
              rw [skipWs_append_nil hw hs1]
            | cons c2 r2 =>
              rw [skipWs_append_cons hs1]
              dsimp only
              by_cases h2 : c2 = ':'
              · rw [if_pos h2, if_pos h2]
                cases hs2 : skipWs r2 with
                | nil =>
                  rw [skipWs_append_nil hw hs2]
                  rw [parseValue_ws_none allJWs_nil f]
                | cons c3 r3 =>
                  rw [skipWs_append_cons hs2]
                  rw [show c3 :: (r3 ++ w) = (c3 :: r3) ++ w from rfl]
                  rw [IHv (c3 :: r3)]
                  cases hv : parseValue f (c3 :: r3) with
                  | none => rfl
                  | some qv =>
                    obtain ⟨v, rv⟩ := qv
                    dsimp only [Option.map]
                    cases hs3 : skipWs rv with
                    | nil =>
                      rw [skipWs_append_nil hw hs3]
                    | cons c4 r4 =>
                      rw [skipWs_append_cons hs3]
                      dsimp only
                      by_cases h4 : c4 = cbr
                      · rw [if_pos h4, if_pos h4]
                      · rw [if_neg h4, if_neg h4]
                        by_cases h5 : c4 = ','
                        · rw [if_pos h5, if_pos h5]
                          cases hs4 : skipWs r4 with
                          | nil =>
                            rw [skipWs_append_nil hw hs4]
                          | cons c5 r5 =>
                            rw [skipWs_append_cons hs4]
                            rw [show c5 :: (r5 ++ w) = (c5 :: r5) ++ w from rfl]
                            exact IHm (insertKey acc k v) (c5 :: r5)
                        · rw [if_neg h5, if_neg h5]
              · rw [if_neg h2, if_neg h2]
        · rw [if_neg h1, if_neg h1]
          rfl
    · intro acc x
      unfold parseItemsRest
      cases hs : skipWs x with
      | nil =>
        rw [skipWs_append_nil hw hs]
        rfl
      | cons c r =>
        rw [skipWs_append_cons hs]
        dsimp only
        by_cases h1 : c = ']'
        · rw [if_pos h1, if_pos h1]
          rfl
        · rw [if_neg h1, if_neg h1]
          by_cases h2 : c = ','
          · rw [if_pos h2, if_pos h2]
            cases hs2 : skipWs r with
            | nil =>
              rw [skipWs_append_nil hw hs2]
              rw [parseValue_ws_none allJWs_nil f]
              rfl
            | cons c3 r3 =>
              rw [skipWs_append_cons hs2]
              rw [show c3 :: (r3 ++ w) = (c3 :: r3) ++ w from rfl]
              rw [IHv (c3 :: r3)]
              cases hv : parseValue f (c3 :: r3) with
              | none => rfl
              | some qv =>
                obtain ⟨v, r2⟩ := qv
                dsimp only [Option.map]
                exact IHi (acc ++ [v]) r2
          · rw [if_neg h2, if_neg h2]
            rfl

theorem parseValue_gen {w : List Char} (hw : allJWs w) (f : Nat) (x : List Char) :
    parseValue f (x ++ w) = (parseValue f x).map (fun p => (p.1, p.2 ++ w)) :=
  (parse_gen_all hw f).1 x
/-- Whatever `parseMembers` consumes ends with the closing brace: the input
splits as consumed-part `++ \x7d ++` rest. -/
theorem parseMembers_shape : ∀ (f : Nat) (acc : List (List Nat × JVal))
    (l : List Char) (p : List (List Nat × JVal) × List Char),
    parseMembers f acc l = some p → ∃ mid, l = mid ++ cbr :: p.2 := by
  intro f
  induction f with
  | zero => intro acc l p h; exact Option.noConfusion h
  | succ f IH =>
    intro acc l p h
    cases l with
    | nil => exact Option.noConfusion h
    | cons c t =>
      unfold parseMembers at h
      by_cases h1 : c = '\"'
      · rw [if_pos h1] at h
        cases hsb : parseStrBody t with
        | none => rw [hsb] at h; exact Option.noConfusion h
        | some qk =>
          obtain ⟨k, r1⟩ := qk
          rw [hsb] at h
          dsimp only at h
          obtain ⟨mK, -, hlK0⟩ := parseStrBody_suffix hsb
          have hlK : t = mK ++ r1 := hlK0
          cases hs1 : skipWs r1 with
          | nil => rw [hs1] at h; exact Option.noConfusion h
          | cons c2 r2 =>
            rw [hs1] at h
            dsimp only at h
            obtain ⟨w1, -, hw1⟩ := skipWs_split hs1
            by_cases h2 : c2 = ':'
            · rw [if_pos h2] at h
              cases hv : parseValue f (skipWs r2) with
              | none => rw [hv] at h; exact Option.noConfusion h
              | some qv =>
                obtain ⟨v, r3⟩ := qv
                rw [hv] at h
                dsimp only at h
                obtain ⟨mV, -, hlV0⟩ := parseValue_suffix hv
                have hlV : skipWs r2 = mV ++ r3 := hlV0
                obtain ⟨w2, -, hw2⟩ := skipWs_split (rfl : skipWs r2 = skipWs r2)
                cases hs3 : skipWs r3 with
                | nil => rw [hs3] at h; exact Option.noConfusion h
                | cons c4 r4 =>
                  rw [hs3] at h
                  dsimp only at h
                  obtain ⟨w3, -, hw3⟩ := skipWs_split hs3
                  by_cases h4 : c4 = cbr
                  · rw [if_pos h4] at h
                    have hp := Option.some.inj h
                    refine ⟨c :: (mK ++ (w1 ++ (c2 :: (w2 ++ (mV ++ w3))))), ?_⟩
                    rw [← hp, hlK, hw1, hw2, hlV, hw3, h4]
                    simp [List.append_assoc]
                  · rw [if_neg h4] at h
                    by_cases h5 : c4 = ','
                    · rw [if_pos h5] at h
                      cases hs4 : skipWs r4 with
                      | nil => rw [hs4] at h; exact Option.noConfusion h
                      | cons c5 r5 =>
                        rw [hs4] at h
                        obtain ⟨w4, -, hw4⟩ := skipWs_split hs4
                        obtain ⟨mid2, hmid2⟩ := IH (insertKey acc k v) (c5 :: r5) p h
                        refine ⟨c :: (mK ++ (w1 ++ (c2 :: (w2 ++ (mV ++
                          (w3 ++ (c4 :: (w4 ++ mid2)))))))), ?_⟩
                        rw [hlK, hw1, hw2, hlV, hw3, hw4, hmid2]
                        simp [List.append_assoc]
                    · rw [if_neg h5] at h; exact Option.noConfusion h
            · rw [if_neg h2] at h; exact Option.noConfusion h
      · rw [if_neg h1] at h; exact Option.noConfusion h

/-- A scan that yields a JSON object consumed exactly a brace-delimited span:
the input is `\x7b mid \x7d rest`. -/
theorem parseValue_shape {f : Nat} {l : List Char} {fs : List (List Nat × JVal)}
    {r : List Char} (h : parseValue f l = some (JVal.jobj fs, r)) :
    ∃ mid, l = obr :: mid ++ cbr :: r := by
  cases f with
  | zero => exact Option.noConfusion h
  | succ f =>
    cases l with
    | nil => exact Option.noConfusion h
    | cons c t =>
      unfold parseValue at h
      dsimp only at h
      by_cases h1 : c = obr
      · rw [if_pos h1] at h
        cases hs : skipWs t with
        | nil => rw [hs] at h; exact Option.noConfusion h
        | cons c2 r0 =>
          rw [hs] at h
          dsimp only at h
          obtain ⟨tw, -, htw⟩ := skipWs_split hs
          by_cases h2 : c2 = cbr
          · rw [if_pos h2] at h
            have hp := Option.some.inj h
            obtain ⟨-, hr⟩ := Prod.mk.inj hp
            refine ⟨tw, ?_⟩
            rw [h1, htw, h2, hr]
            simp
          · rw [if_neg h2] at h
            cases hm : parseMembers f [] (c2 :: r0) with
            | none => rw [hm] at h; exact Option.noConfusion h
            | some q =>
              obtain ⟨fs0, r1⟩ := q
              rw [hm] at h
              have hp : (JVal.jobj fs0, r1) = (JVal.jobj fs, r) := by simpa using h
              obtain ⟨-, hr⟩ := Prod.mk.inj hp
              obtain ⟨mid2, hmid2⟩ := parseMembers_shape f [] (c2 :: r0) (fs0, r1) hm
              have hmid : c2 :: r0 = mid2 ++ cbr :: r1 := hmid2
              refine ⟨tw ++ mid2, ?_⟩
              rw [h1, htw, hmid, hr]
              simp [List.append_assoc]
      · rw [if_neg h1] at h
        exfalso
        by_cases h3 : c = '['
        · rw [if_pos h3] at h
          cases hs : skipWs t with
          | nil => rw [hs] at h; exact Option.noConfusion h
          | cons c2 r0 =>
            rw [hs] at h
            dsimp only at h
            by_cases h4 : c2 = ']'
            · rw [if_pos h4] at h
              exact JVal.noConfusion (Prod.mk.inj (Option.some.inj h)).1
            · rw [if_neg h4] at h
              cases hv : parseValue f (c2 :: r0) with
              | none => rw [hv] at h; exact Option.noConfusion h
              | some qv =>
                obtain ⟨v, r2⟩ := qv
                rw [hv] at h
                dsimp only at h
                cases hit : parseItemsRest f [v] r2 with
                | none => rw [hit] at h; exact Option.noConfusion h
                | some qi =>
                  rw [hit] at h
                  have hp : (JVal.jarr qi.1, qi.2) = (JVal.jobj fs, r) := by
                    simpa using h
                  exact JVal.noConfusion (Prod.mk.inj hp).1
        · rw [if_neg h3] at h
          by_cases h5 : c = '\"'
          · rw [if_pos h5] at h
            cases hsb : parseStrBody t with
            | none => rw [hsb] at h; exact Option.noConfusion h
            | some qs =>
              obtain ⟨cs, rS⟩ := qs
              rw [hsb] at h
              dsimp only at h
              exact JVal.noConfusion (Prod.mk.inj (Option.some.inj h)).1
          · rw [if_neg h5] at h
            by_cases h6 : (c :: t).take 4 = "null".data
            · rw [if_pos h6] at h
              exact JVal.noConfusion (Prod.mk.inj (Option.some.inj h)).1
            · rw [if_neg h6] at h
              by_cases h7 : (c :: t).take 4 = "true".data
              · rw [if_pos h7] at h
                exact JVal.noConfusion (Prod.mk.inj (Option.some.inj h)).1
              · rw [if_neg h7] at h
                by_cases h8 : (c :: t).take 5 = "false".data
                · rw [if_pos h8] at h
                  exact JVal.noConfusion (Prod.mk.inj (Option.some.inj h)).1
                · rw [if_neg h8] at h
                  by_cases h9 : (c :: t).take 3 = "NaN".data
                  · rw [if_pos h9] at h
                    exact JVal.noConfusion (Prod.mk.inj (Option.some.inj h)).1
                  · rw [if_neg h9] at h
                    by_cases h10 : (c :: t).take 8 = "Infinity".data
                    · rw [if_pos h10] at h
                      exact JVal.noConfusion (Prod.mk.inj (Option.some.inj h)).1
                    · rw [if_neg h10] at h
                      by_cases h11 : (c :: t).take 9 = "-Infinity".data
                      · rw [if_pos h11] at h
                        exact JVal.noConfusion (Prod.mk.inj (Option.some.inj h)).1
                      · rw [if_neg h11] at h
                        exact parseNumber_not_obj h fs rfl
/-- C1: for every input string `T` that is the text of a valid top-level JSON
object (strict `json.loads` yields an object), `extract T` returns `Success`
with payload equal to that strict decoding: the trim, fence-strip and
brace-slice steps leave such a `T` semantically unchanged before decoding. -/
theorem claim_C1 (T : String) (fs : List (List Nat × JVal))
    (h : decode T = some (JVal.jobj fs)) :
    extract T = ParseOutcome.success (JVal.jobj fs) := by
  unfold decode at h
  unfold decodeL at h
  dsimp only at h
  cases hpv : parseValue ((skipWs T.data).length + 1) (skipWs T.data) with
  | none => rw [hpv] at h; exact Option.noConfusion h
  | some q =>
    obtain ⟨v, r⟩ := q
    rw [hpv] at h
    dsimp only at h
    by_cases hre : skipWs r = []
    · rw [if_pos hre] at h
      have hv := Option.some.inj h
      subst hv
      have hr : allJWs r := fun c hc => List.dropWhile_eq_nil_iff.mp hre c hc
      obtain ⟨mid, hshape⟩ := parseValue_shape hpv
      have hX : skipWs T.data = (obr :: mid ++ [cbr]) ++ r := by
        rw [hshape]
        simp [List.append_assoc]
      have hgen := parseValue_gen hr ((skipWs T.data).length + 1)
        (obr :: mid ++ [cbr])
      rw [← hX, hpv] at hgen
      cases hpx : parseValue ((skipWs T.data).length + 1) (obr :: mid ++ [cbr]) with
      | none => rw [hpx] at hgen; simp at hgen
      | some q0 =>
        obtain ⟨v0, r0⟩ := q0
        rw [hpx] at hgen
        have hg2 : (JVal.jobj fs, r) = (v0, r0 ++ r) := Option.some.inj hgen
        obtain ⟨hv0, hr0⟩ := Prod.mk.inj hg2
        have hr00 : r0 = [] := by
          have hlen := congrArg List.length hr0
          rw [List.length_append] at hlen
          exact List.length_eq_zero.mp (by omega)
        rw [← hv0, hr00] at hpx
        have hS : parseValue ((obr :: mid ++ [cbr]).length + 1)
            (obr :: mid ++ [cbr]) = some (JVal.jobj fs, []) := by
          refine parseValue_S hpx ?_
          have hlX := congrArg List.length hX
          rw [List.length_append] at hlX
          omega
        obtain ⟨w1, hw1j, hw1e⟩ := skipWs_split (rfl : skipWs T.data = skipWs T.data)
        rw [hX, ← List.append_assoc] at hw1e
        have hpyT : pyStrip T.data = pyStrip (obr :: mid ++ [cbr]) := by
          rw [hw1e]
          exact pyStrip_ws_wrap (allJWs_allPyWs hw1j) (allJWs_allPyWs hr) _
        have h0 : pyStrip T.data = pyStrip (obr :: mid ++ [cbr]) := hpyT
        have hSF : stripFencesL T.data = obr :: mid ++ [cbr] := by
          have h1 : stripFencesL T.data = stripFencesL (obr :: mid ++ [cbr]) := by
            unfold stripFencesL
            rw [h0]
          rw [h1, stripFencesL_braced]
        have hclean : cleanedOf T.data = obr :: mid ++ [cbr] := by
          have h2 := cleanedOf_braced mid
          unfold cleanedOf at h2 ⊢
          rw [hSF]
          rw [stripFencesL_braced] at h2
          exact h2
        have hskipX : skipWs (obr :: mid ++ [cbr]) = obr :: mid ++ [cbr] := by
          unfold skipWs
          rw [List.cons_append, List.dropWhile_cons,
            if_neg (by decide : ¬(jsonWs obr = true))]
        have hdecX : decodeL (obr :: mid ++ [cbr]) = some (JVal.jobj fs) := by
          unfold decodeL
          dsimp only
          rw [hskipX, hS]
          rfl
        unfold extract
        rw [hclean, hdecX]
    · rw [if_neg hre] at h
      exact Option.noConfusion h

/-- C1 witness: the concrete object text `\x7b"x": 1\x7d` with surrounding
whitespace strictly decodes to the one-field object, and `extract` returns
exactly that payload. -/
theorem claim_C1_witness :
    decode " \x7b\"x\": 1\x7d\n" = some (JVal.jobj [(cp "x", JVal.jint 1)]) ∧
    extract " \x7b\"x\": 1\x7d\n"
      = ParseOutcome.success (JVal.jobj [(cp "x", JVal.jint 1)]) :=
  ⟨by rfl, claim_C1 " \x7b\"x\": 1\x7d\n" [(cp "x", JVal.jint 1)] (by rfl)⟩
